import Mathlib

/-!
Verification of the P-384 point arithmetic module (`ecc/p384/point.go`).

The field layer (`fp384`) is an external collaborator of the module under
verification: field elements are modelled as elements of a commutative ring
or field `K`, with `fp384Add`, `fp384Sub`, `fp384Mul`, `fp384Sqr`,
`fp384Neg`, `fp384Inv` interpreted as the ring or field operations, and
the Montgomery encode and decode maps interpreted as the identity on the
represented residue (the Montgomery representation is a bijective change of
representation that commutes with all of these operations; the module never
inspects the raw representation).  The curve constant `bb` of the source
becomes an explicit parameter `b`.  The curve of the module is the short
Weierstrass curve y^2 = x^3 - 3 x + b (the P-384 coefficient a equals -3;
this constant is baked into the doubling and complete-addition formulas of
the source).

Every definition below mirrors the corresponding Go function line by line;
semantic (specification-level) notions are taken from Mathlib, namely the
group of nonsingular rational points of a Weierstrass curve in affine
coordinates and the Jacobian-coordinate formula layer.
-/

set_option maxHeartbeats 1000000
set_option linter.unusedSectionVars false
set_option linter.unusedVariables false

section PointDefs

variable {K : Type} [CommRing K] [DecidableEq K]

/-- Model of `affinePoint` (point.go line 12): an affine point of the curve.
The point at infinity is (0,0), leveraging that it is not an affine point. -/
structure affinePoint (K : Type) where
  x : K
  y : K
  deriving DecidableEq

/-- Model of `jacobianPoint` (point.go line 91): the point at infinity is any
point (x,y,0) such that x and y are different from 0. -/
structure jacobianPoint (K : Type) where
  x : K
  y : K
  z : K
  deriving DecidableEq

/-- Model of `homogeneousPoint` (point.go line 283): the point at infinity is
(0,y,0) such that y is different from 0. -/
structure homogeneousPoint (K : Type) where
  x : K
  y : K
  z : K
  deriving DecidableEq

/-- Model of `newAffinePoint` (point.go line 21): `SetBigInt` reduces an
arbitrary-precision integer into the field, modelled by the canonical ring
homomorphism from the integers; `montEncode` is the identity at this level
of abstraction. -/
def newAffinePoint (X Y : ℤ) : affinePoint K :=
  { x := (X : K), y := (Y : K) }

/-- Model of `zeroPoint` (point.go line 30). -/
def zeroPoint : affinePoint K :=
  { x := 0, y := 0 }

/-- Model of `affinePoint.isZero` (point.go line 66). -/
def affinePoint.isZero (ap : affinePoint K) : Bool :=
  decide (ap.x = 0 ∧ ap.y = 0)

/-- Model of `affinePoint.toJacobian` (point.go line 34); `montEncode(1)`
represents the field element 1. -/
def affinePoint.toJacobian (ap : affinePoint K) : jacobianPoint K :=
  if ap.isZero then { x := 1, y := 1, z := 0 }
  else { x := ap.x, y := ap.y, z := 1 }

/-- Model of `affinePoint.toHomogeneous` (point.go line 47). -/
def affinePoint.toHomogeneous (ap : affinePoint K) : homogeneousPoint K :=
  if ap.isZero then { x := 0, y := 1, z := 0 }
  else { x := ap.x, y := ap.y, z := 1 }

/-- Model of `jacobianPoint.isZero` (point.go line 128). -/
def jacobianPoint.isZero (P : jacobianPoint K) : Bool :=
  decide (P.x ≠ 0 ∧ P.y ≠ 0 ∧ P.z = 0)

/-- The shared intermediate term H = U2 - U1 of `jacobianPoint.add`
(point.go line 160). -/
def jacobianPoint.addH (Q R : jacobianPoint K) : K :=
  R.x * Q.z ^ 2 - Q.x * R.z ^ 2

/-- Model of `jacobianPoint.add` (point.go line 135): Cohen-Miyagi-Ono
addition with the two explicit identity fast paths.  The receiver is the
returned value. -/
def jacobianPoint.add (Q R : jacobianPoint K) : jacobianPoint K :=
  if Q.isZero then R
  else if R.isZero then Q
  else
    let Z1Z1 := Q.z ^ 2
    let Z2Z2 := R.z ^ 2
    let U1 := Q.x * Z2Z2
    let U2 := R.x * Z1Z1
    let t0 := R.z * Z2Z2
    let S1 := Q.y * t0
    let t1 := Q.z * Z1Z1
    let S2 := R.y * t1
    let H := U2 - U1
    let HH := H ^ 2
    let HHH := H * HH
    let RR := S2 - S1
    let V := U1 * HH
    let t2 := RR ^ 2
    let t3 := V + V
    let t4 := t2 - HHH
    let X3 := t4 - t3
    let t5 := V - X3
    let t6 := S1 * HHH
    let t7 := RR * t5
    let Y3 := t7 - t6
    let t8 := R.z * H
    let Z3 := Q.z * t8
    { x := X3, y := Y3, z := Z3 }

/-- Model of `jacobianPoint.double` (point.go line 229), the `dbl-2001-b`
doubling formula specialized to a = -3, mutating the receiver in place. -/
def jacobianPoint.double (P : jacobianPoint K) : jacobianPoint K :=
  let delta := P.z ^ 2
  let gamma := P.y ^ 2
  let alpha0 := (P.x - delta) * (P.x + delta)
  let alpha := alpha0 + alpha0 + alpha0
  let beta := P.x * gamma
  let beta8 := beta + beta + (beta + beta) + (beta + beta + (beta + beta))
  let X3 := alpha ^ 2 - beta8
  let Z3 := (P.y + P.z) ^ 2 - gamma - delta
  let beta4 := beta + beta + (beta + beta)
  let Y3 := alpha * (beta4 - X3) - (gamma ^ 2 + gamma ^ 2 + (gamma ^ 2 + gamma ^ 2)
    + (gamma ^ 2 + gamma ^ 2 + (gamma ^ 2 + gamma ^ 2)))
  { x := X3, y := Y3, z := Z3 }

/-- Model of `jacobianPoint.mixadd` (point.go line 179): mixed addition of a
Jacobian point and an affine point, with the branch structure of the source:
identity fast paths, the equal-x branch (doubling or identity), and the
general mixed-addition formula. -/
def jacobianPoint.mixadd (Q : jacobianPoint K) (R : affinePoint K) : jacobianPoint K :=
  if Q.isZero then R.toJacobian
  else if R.isZero then Q
  else
    let z1z1 := Q.z ^ 2
    let u2 := R.x * z1z1
    let s2 := R.y * Q.z * z1z1
    if Q.x = u2 then
      (if Q.y = s2 then Q.double else (zeroPoint (K := K)).toJacobian)
    else
      let h := u2 - Q.x
      let Z3 := h * Q.z
      let r := s2 - Q.y
      let h2 := h ^ 2
      let h3 := h2 * h
      let h3y1 := h3 * Q.y
      let h2x1 := h2 * Q.x
      let X3 := r ^ 2 - h3 - h2x1 - h2x1
      let Y3 := (h2x1 - X3) * r - h3y1
      { x := X3, y := Y3, z := Z3 }

/-- Model of the iteration `t[i] = add(t[i-1], 2P)` of
`affinePoint.oddMultiples` (point.go line 82). -/
def jacobianPoint.oddIter (P twoP : jacobianPoint K) : ℕ → jacobianPoint K
  | 0 => P
  | i + 1 => (jacobianPoint.oddIter P twoP i).add twoP

/-- Model of `affinePoint.oddMultiples` (point.go line 73): for 1 < n < 31
the table of the odd multiples P, 3P, ..., (2^n - 1)P as Jacobian points,
otherwise the empty sequence. -/
def affinePoint.oddMultiples (ap : affinePoint K) (n : ℕ) : List (jacobianPoint K) :=
  if 1 < n ∧ n < 31 then
    let P := ap.toJacobian
    let twoP := P.double
    (List.range (2 ^ (n - 1))).map (jacobianPoint.oddIter P twoP)
  else []

/-- Model of `homogeneousPoint.isZero` (point.go line 359). -/
def homogeneousPoint.isZero (P : homogeneousPoint K) : Bool :=
  decide (P.x = 0 ∧ P.y ≠ 0 ∧ P.z = 0)

/-- Model of `homogeneousPoint.completeAdd` (point.go line 308): the 43-step
complete addition formula; `bb` of the source is the parameter `b`. -/
def homogeneousPoint.completeAdd (b : K) (Q R : homogeneousPoint K) : homogeneousPoint K :=
  let t0 := Q.x * R.x
  let t1 := Q.y * R.y
  let t2 := Q.z * R.z
  let t3 := Q.x + Q.y
  let t4 := R.x + R.y
  let t3 := t3 * t4
  let t4 := t0 + t1
  let t3 := t3 - t4
  let t4 := Q.y + Q.z
  let X3 := R.y + R.z
  let t4 := t4 * X3
  let X3 := t1 + t2
  let t4 := t4 - X3
  let X3 := Q.x + Q.z
  let Y3 := R.x + R.z
  let X3 := X3 * Y3
  let Y3 := t0 + t2
  let Y3 := X3 - Y3
  let Z3 := b * t2
  let X3 := Y3 - Z3
  let Z3 := X3 + X3
  let X3 := X3 + Z3
  let Z3 := t1 - X3
  let X3 := t1 + X3
  let Y3 := b * Y3
  let t1 := t2 + t2
  let t2 := t1 + t2
  let Y3 := Y3 - t2
  let Y3 := Y3 - t0
  let t1 := Y3 + Y3
  let Y3 := t1 + Y3
  let t1 := t0 + t0
  let t0 := t1 + t0
  let t0 := t0 - t2
  let t1 := t4 * Y3
  let t2 := t0 * Y3
  let Y3 := X3 * Z3
  let Y3 := Y3 + t2
  let X3 := t3 * X3
  let X3 := X3 - t1
  let Z3 := t4 * Z3
  let t1 := t3 * t0
  let Z3 := Z3 + t1
  { x := X3, y := Y3, z := Z3 }

end PointDefs

section PointDefsField

variable {K : Type} [Field K] [DecidableEq K]

/-- Model of `jacobianPoint.toAffine` (point.go line 109): one field inversion
of Z and a rescaling; `fp384Inv` is the field inverse (which maps 0 to 0,
the convention of the field layer realized by Fermat inversion). -/
def jacobianPoint.toAffine (P : jacobianPoint K) : affinePoint K :=
  let zinv := P.z⁻¹
  let z2 := zinv ^ 2
  { x := P.x * z2, y := P.y * zinv * z2 }

/-- Model of `homogeneousPoint.toAffine` (point.go line 298). -/
def homogeneousPoint.toAffine (P : homogeneousPoint K) : affinePoint K :=
  let zinv := P.z⁻¹
  { x := P.x * zinv, y := P.y * zinv }

end PointDefsField

section Semantics

variable {K : Type} [CommRing K] [DecidableEq K]

/-- The short Weierstrass curve of the module: y^2 = x^3 - 3x + b. -/
def p384ShortW (b : K) : WeierstrassCurve K :=
  { a₁ := 0, a₂ := 0, a₃ := 0, a₄ := -3, a₆ := b }

/-- The curve viewed in affine coordinates. -/
abbrev p384W (b : K) : WeierstrassCurve.Affine K :=
  (p384ShortW b).toAffine

/-- An affine model point represents a nonsingular rational point of the
curve: the sentinel (0,0) represents the group identity, and otherwise the
coordinates agree. -/
def AffRepr (b : K) (P : affinePoint K) (A : ((p384ShortW b).toAffine).Point) : Prop :=
  (A = 0 ∧ P.x = 0 ∧ P.y = 0) ∨
  (∃ (xa ya : K) (h : ((p384ShortW b).toAffine).Nonsingular xa ya),
    A = WeierstrassCurve.Affine.Point.some h ∧ P.x = xa ∧ P.y = ya)

/-- A Jacobian model point represents a nonsingular rational point: the
identity is encoded as (x,y,0) with x, y nonzero and y^2 = x^3 (the Jacobian
curve equation at z = 0), and a finite point (xa, ya) is encoded as any
(xa t^2, ya t^3, t) with t nonzero. -/
def JacRepr (b : K) (P : jacobianPoint K) (A : ((p384ShortW b).toAffine).Point) : Prop :=
  (A = 0 ∧ P.z = 0 ∧ P.x ≠ 0 ∧ P.y ≠ 0 ∧ P.y ^ 2 = P.x ^ 3) ∨
  (∃ (xa ya : K) (h : ((p384ShortW b).toAffine).Nonsingular xa ya),
    A = WeierstrassCurve.Affine.Point.some h ∧ P.z ≠ 0 ∧
      P.x = xa * P.z ^ 2 ∧ P.y = ya * P.z ^ 3)

/-- A homogeneous model point represents a nonsingular rational point: the
identity is encoded as (0,y,0) with y nonzero, and a finite point (xa, ya)
is encoded as any (xa t, ya t, t) with t nonzero. -/
def HomRepr (b : K) (P : homogeneousPoint K) (A : ((p384ShortW b).toAffine).Point) : Prop :=
  (A = 0 ∧ P.x = 0 ∧ P.y ≠ 0 ∧ P.z = 0) ∨
  (∃ (xa ya : K) (h : ((p384ShortW b).toAffine).Nonsingular xa ya),
    A = WeierstrassCurve.Affine.Point.some h ∧ P.z ≠ 0 ∧
      P.x = xa * P.z ∧ P.y = ya * P.z)

end Semantics

section Helpers

variable {K : Type} [CommRing K] [DecidableEq K]

/-- Arithmetic form of the affine curve membership predicate. -/
lemma p384W_equation_iff {b x y : K} :
    (p384W b).Equation x y ↔ y ^ 2 = x ^ 3 - 3 * x + b := by
  rw [WeierstrassCurve.Affine.equation_iff]
  simp only [p384W, p384ShortW, WeierstrassCurve.toAffine]
  constructor <;> intro h <;> linear_combination h

/-- Negation of the y-coordinate on this curve is plain negation. -/
lemma p384W_negY {b : K} (x y : K) : (p384W b).negY x y = -y := by
  simp [WeierstrassCurve.Affine.negY, p384W, p384ShortW, WeierstrassCurve.toAffine]

/-- The coordinates of a Jacobian model point as a Mathlib point representative. -/
def jfin (P : jacobianPoint K) : Fin 3 → K :=
  ![P.x, P.y, P.z]

lemma jfin_x (P : jacobianPoint K) : jfin P 0 = P.x := rfl

lemma jfin_y (P : jacobianPoint K) : jfin P 1 = P.y := rfl

lemma jfin_z (P : jacobianPoint K) : jfin P 2 = P.z := rfl

/-- Arithmetic form of the Jacobian curve membership predicate. -/
lemma p384J_equation_iff {b : K} {P : jacobianPoint K} :
    (p384ShortW b).toJacobian.Equation (jfin P) ↔
      P.y ^ 2 = P.x ^ 3 - 3 * P.x * P.z ^ 4 + b * P.z ^ 6 := by
  rw [WeierstrassCurve.Jacobian.equation_iff]
  simp only [jfin_x, jfin_y, jfin_z, p384ShortW, WeierstrassCurve.toJacobian]
  constructor <;> intro h <;> linear_combination h

end Helpers

section HelpersField

variable {K : Type} [Field K] [DecidableEq K]

/-- Nonsingularity from the curve equation and a nonvanishing y-coordinate,
assuming 2 is invertible in the field. -/
lemma p384W_nonsingular {b x y : K} (h2 : (2 : K) ≠ 0)
    (h : y ^ 2 = x ^ 3 - 3 * x + b) (hy : y ≠ 0) : (p384W b).Nonsingular x y := by
  rw [WeierstrassCurve.Affine.nonsingular_iff']
  refine ⟨p384W_equation_iff.mpr h, Or.inr ?_⟩
  simp only [p384W, p384ShortW, WeierstrassCurve.toAffine]
  intro hc
  exact mul_ne_zero h2 hy (by linear_combination hc)

end HelpersField

section Bridges

variable {K : Type} [CommRing K] [DecidableEq K]

/-- The Cohen-Miyagi-Ono addition of the source computes, on the curve, the
Mathlib Jacobian-coordinate addition of representatives up to the weighted
scaling by -(Z1 Z2). -/
lemma add_bridge {b : K} {Q R : jacobianPoint K}
    (hQ0 : Q.isZero = false) (hR0 : R.isZero = false)
    (hQ : Q.y ^ 2 = Q.x ^ 3 - 3 * Q.x * Q.z ^ 4 + b * Q.z ^ 6)
    (hR : R.y ^ 2 = R.x ^ 3 - 3 * R.x * R.z ^ 4 + b * R.z ^ 6) :
    (Q.add R).x = (Q.z * R.z) ^ 2 * (p384ShortW b).toJacobian.addX (jfin Q) (jfin R) ∧
    (Q.add R).y = -(Q.z * R.z) ^ 3 * (p384ShortW b).toJacobian.addY (jfin Q) (jfin R) ∧
    (Q.add R).z = -(Q.z * R.z) * WeierstrassCurve.Jacobian.addZ (jfin Q) (jfin R) := by
  simp only [jacobianPoint.add, hQ0, hR0, Bool.false_eq_true, if_false,
    WeierstrassCurve.Jacobian.addX, WeierstrassCurve.Jacobian.addY,
    WeierstrassCurve.Jacobian.negAddY, WeierstrassCurve.Jacobian.addZ,
    WeierstrassCurve.Jacobian.negY, jfin, p384ShortW, WeierstrassCurve.toJacobian,
    Matrix.head_cons, Matrix.tail_cons, Matrix.cons_val_zero, Matrix.cons_val_one,
    Matrix.cons_val_two]
  refine ⟨?_, ?_, ?_⟩
  · linear_combination R.z ^ 6 * hQ + Q.z ^ 6 * hR
  · linear_combination (Q.y * R.z ^ 9 - Q.z ^ 3 * R.y * R.z ^ 6) * hQ +
      (Q.y * Q.z ^ 6 * R.z ^ 3 - Q.z ^ 9 * R.y) * hR
  · ring

/-- The doubling of the source coincides exactly with the Mathlib
Jacobian-coordinate doubling of representatives. -/
lemma double_bridge {b : K} (P : jacobianPoint K) :
    P.double.x = (p384ShortW b).toJacobian.dblX (jfin P) ∧
    P.double.y = (p384ShortW b).toJacobian.dblY (jfin P) ∧
    P.double.z = (p384ShortW b).toJacobian.dblZ (jfin P) := by
  simp only [jacobianPoint.double, WeierstrassCurve.Jacobian.dblX,
    WeierstrassCurve.Jacobian.dblY, WeierstrassCurve.Jacobian.negDblY,
    WeierstrassCurve.Jacobian.dblZ, WeierstrassCurve.Jacobian.dblU_eq,
    WeierstrassCurve.Jacobian.negY, jfin, p384ShortW, WeierstrassCurve.toJacobian,
    Matrix.head_cons, Matrix.tail_cons, Matrix.cons_val_zero, Matrix.cons_val_one,
    Matrix.cons_val_two]
  refine ⟨by ring, by ring, by ring⟩

/-- The affine operand of a mixed addition as a Mathlib point representative. -/
def afin (R : affinePoint K) : Fin 3 → K :=
  ![R.x, R.y, 1]

lemma afin_x (R : affinePoint K) : afin R 0 = R.x := rfl

lemma afin_y (R : affinePoint K) : afin R 1 = R.y := rfl

lemma afin_z (R : affinePoint K) : afin R 2 = 1 := rfl

/-- The general branch of the mixed addition of the source computes the
Mathlib Jacobian-coordinate addition of the Jacobian operand and the lifted
affine operand, up to the weighted scaling by -Z1. -/
lemma mixadd_bridge {b : K} {Q : jacobianPoint K} {R : affinePoint K}
    (hQ0 : Q.isZero = false) (hR0 : R.isZero = false)
    (hx : ¬ Q.x = R.x * Q.z ^ 2)
    (hQ : Q.y ^ 2 = Q.x ^ 3 - 3 * Q.x * Q.z ^ 4 + b * Q.z ^ 6)
    (hR : R.y ^ 2 = R.x ^ 3 - 3 * R.x + b) :
    (Q.mixadd R).x = Q.z ^ 2 * (p384ShortW b).toJacobian.addX (jfin Q) (afin R) ∧
    (Q.mixadd R).y = -Q.z ^ 3 * (p384ShortW b).toJacobian.addY (jfin Q) (afin R) ∧
    (Q.mixadd R).z = -Q.z * WeierstrassCurve.Jacobian.addZ (jfin Q) (afin R) := by
  simp only [jacobianPoint.mixadd, hQ0, hR0, Bool.false_eq_true, if_false, hx,
    WeierstrassCurve.Jacobian.addX, WeierstrassCurve.Jacobian.addY,
    WeierstrassCurve.Jacobian.negAddY, WeierstrassCurve.Jacobian.addZ,
    WeierstrassCurve.Jacobian.negY, jfin, afin, p384ShortW, WeierstrassCurve.toJacobian,
    Matrix.head_cons, Matrix.tail_cons, Matrix.cons_val_zero, Matrix.cons_val_one,
    Matrix.cons_val_two]
  refine ⟨?_, ?_, ?_⟩
  · linear_combination hQ + Q.z ^ 6 * hR
  · linear_combination (Q.y - Q.z ^ 3 * R.y) * hQ +
      (Q.y * Q.z ^ 6 - Q.z ^ 9 * R.y) * hR
  · ring

end Bridges

section ReprLemmas

open WeierstrassCurve.Affine

variable {K : Type} [Field K] [DecidableEq K]

/-- Equal coordinates give equal nonsingular points. -/
lemma somePoint_eq {W : WeierstrassCurve.Affine K} {x1 y1 x2 y2 : K}
    (h1 : W.Nonsingular x1 y1) (h2 : W.Nonsingular x2 y2)
    (hx : x1 = x2) (hy : y1 = y2) :
    WeierstrassCurve.Affine.Point.some h1 = WeierstrassCurve.Affine.Point.some h2 := by
  subst hx
  subst hy
  rfl

/-- The Cohen-Miyagi-Ono `add` of the source computes the group sum on
representatives, provided the two points are neither equal nor mutually
negated (the documented precondition); the identity fast paths are total. -/
lemma jacAdd_repr {b : K} {P Q : jacobianPoint K} {A B : (p384W b).Point}
    (hPA : JacRepr b P A) (hQB : JacRepr b Q B)
    (hne : A ≠ B) (hneg : A ≠ -B) :
    JacRepr b (P.add Q) (A + B) := by
  rcases hPA with ⟨hA, hPz, hPx, hPy, hPcu⟩ | ⟨x1, y1, h1, hA, hPz, hPx, hPy⟩
  · have hP0 : P.isZero = true := by
      simp [jacobianPoint.isZero, hPz, hPx, hPy]
    subst hA
    rw [zero_add]
    simpa [jacobianPoint.add, hP0] using hQB
  · rcases hQB with ⟨hB, hQz, hQx, hQy, hQcu⟩ | ⟨x2, y2, h2, hB, hQz, hQx, hQy⟩
    · have hP0 : P.isZero = false := by
        simp [jacobianPoint.isZero, hPz]
      have hQ0 : Q.isZero = true := by
        simp [jacobianPoint.isZero, hQz, hQx, hQy]
      subst hB
      rw [add_zero]
      have hres : P.add Q = P := by
        simp [jacobianPoint.add, hP0, hQ0]
      rw [hres]
      exact Or.inr ⟨x1, y1, h1, hA, hPz, hPx, hPy⟩
    · subst hA
      subst hB
      have hP0 : P.isZero = false := by
        simp [jacobianPoint.isZero, hPz]
      have hQ0 : Q.isZero = false := by
        simp [jacobianPoint.isZero, hQz]
      have e1 : y1 ^ 2 = x1 ^ 3 - 3 * x1 + b := p384W_equation_iff.mp h1.1
      have e2 : y2 ^ 2 = x2 ^ 3 - 3 * x2 + b := p384W_equation_iff.mp h2.1
      have hx12 : x1 ≠ x2 := by
        intro hxx
        rcases Y_eq_of_X_eq h1.1 h2.1 hxx with hyy | hyy
        · exact hne (somePoint_eq h1 h2 hxx hyy)
        · refine hneg ?_
          rw [WeierstrassCurve.Affine.Point.neg_some]
          exact somePoint_eq h1 (nonsingular_neg h2) hxx hyy
      have hPj : P.y ^ 2 = P.x ^ 3 - 3 * P.x * P.z ^ 4 + b * P.z ^ 6 := by
        rw [hPx, hPy]
        linear_combination P.z ^ 6 * e1
      have hQj : Q.y ^ 2 = Q.x ^ 3 - 3 * Q.x * Q.z ^ 4 + b * Q.z ^ 6 := by
        rw [hQx, hQy]
        linear_combination Q.z ^ 6 * e2
      obtain ⟨brx, bry, brz⟩ := add_bridge hP0 hQ0 hPj hQj
      have hPe : (p384ShortW b).toJacobian.Equation (jfin P) := p384J_equation_iff.mpr hPj
      have hQe : (p384ShortW b).toJacobian.Equation (jfin Q) := p384J_equation_iff.mpr hQj
      have hPz3 : jfin P 2 ≠ 0 := hPz
      have hQz3 : jfin Q 2 ≠ 0 := hQz
      have hxc : jfin P 0 * jfin Q 2 ^ 2 ≠ jfin Q 0 * jfin P 2 ^ 2 := by
        simp only [jfin_x, jfin_z]
        rw [hPx, hQx]
        intro hcc
        apply hx12
        have hcc2 : x1 * (P.z ^ 2 * Q.z ^ 2) = x2 * (P.z ^ 2 * Q.z ^ 2) := by
          linear_combination hcc
        exact mul_right_cancel₀ (mul_ne_zero (pow_ne_zero 2 hPz) (pow_ne_zero 2 hQz)) hcc2
      have hXdiv1 : jfin P 0 / jfin P 2 ^ 2 = x1 := by
        simp only [jfin_x, jfin_z]
        rw [hPx]
        field_simp
      have hYdiv1 : jfin P 1 / jfin P 2 ^ 3 = y1 := by
        simp only [jfin_y, jfin_z]
        rw [hPy]
        field_simp
      have hXdiv2 : jfin Q 0 / jfin Q 2 ^ 2 = x2 := by
        simp only [jfin_x, jfin_z]
        rw [hQx]
        field_simp
      have hYdiv2 : jfin Q 1 / jfin Q 2 ^ 3 = y2 := by
        simp only [jfin_y, jfin_z]
        rw [hQy]
        field_simp
      have hZne : WeierstrassCurve.Jacobian.addZ (jfin P) (jfin Q) ≠ 0 :=
        WeierstrassCurve.Jacobian.addZ_ne_zero_of_X_ne hxc
      have haX := WeierstrassCurve.Jacobian.addX_of_Z_ne_zero hPe hQe hPz3 hQz3 hxc
      rw [hXdiv1, hXdiv2, hYdiv1, hYdiv2, div_eq_iff (pow_ne_zero 2 hZne)] at haX
      have haY := WeierstrassCurve.Jacobian.addY_of_Z_ne_zero hPe hQe hPz3 hQz3 hxc
      rw [hXdiv1, hXdiv2, hYdiv1, hYdiv2, div_eq_iff (pow_ne_zero 3 hZne)] at haY
      rw [WeierstrassCurve.Affine.Point.add_of_X_ne hx12]
      refine Or.inr ⟨_, _, nonsingular_add h1 h2 (fun h => (hx12 h).elim), rfl, ?_, ?_, ?_⟩
      · rw [brz]
        exact mul_ne_zero (neg_ne_zero.mpr (mul_ne_zero hPz hQz)) hZne
      · rw [brx, brz, haX]
        ring
      · rw [bry, brz, haY]
        ring

/-- The y-coordinate negation on the Jacobian layer of this curve is plain
negation. -/
lemma p384J_negY {b : K} (P : jacobianPoint K) :
    (p384ShortW b).toJacobian.negY (jfin P) = -P.y := by
  simp [WeierstrassCurve.Jacobian.negY, jfin, p384ShortW, WeierstrassCurve.toJacobian,
    Matrix.head_cons, Matrix.tail_cons, Matrix.cons_val_zero, Matrix.cons_val_one,
    Matrix.cons_val_two]

/-- The in-place doubling of the source computes the group double on
representatives, for every represented point, the identity included. -/
lemma double_repr {b : K} (h2 : (2 : K) ≠ 0)
    (h2tor : ∀ x y : K, y ^ 2 = x ^ 3 - 3 * x + b → y ≠ 0)
    {P : jacobianPoint K} {A : (p384W b).Point}
    (hPA : JacRepr b P A) : JacRepr b P.double (A + A) := by
  rcases hPA with ⟨hA, hPz, hPx, hPy, hPcu⟩ | ⟨x1, y1, h1, hA, hPz, hPx, hPy⟩
  · subst hA
    rw [add_zero]
    have hx4 : P.double.x = P.x ^ 4 := by
      simp only [jacobianPoint.double]
      linear_combination (-8 * P.x) * hPcu + (-18 * P.x ^ 2 * P.z ^ 3 + 9 * P.z ^ 7) * hPz
    have hy6 : P.double.y = P.x ^ 6 := by
      simp only [jacobianPoint.double]
      linear_combination (28 * P.x ^ 3 - 36 * P.x * P.z ^ 4 - 8 * P.y ^ 2) * hPcu +
        (45 * P.x ^ 4 * P.z ^ 3 - 81 * P.x ^ 2 * P.z ^ 7 + 27 * P.z ^ 11) * hPz
    have hz0 : P.double.z = 0 := by
      simp only [jacobianPoint.double]
      linear_combination (2 * P.y) * hPz
    refine Or.inl ⟨rfl, hz0, ?_, ?_, ?_⟩
    · rw [hx4]
      exact pow_ne_zero 4 hPx
    · rw [hy6]
      exact pow_ne_zero 6 hPx
    · rw [hx4, hy6]
      ring
  · subst hA
    have e1 : y1 ^ 2 = x1 ^ 3 - 3 * x1 + b := p384W_equation_iff.mp h1.1
    have hy1 : y1 ≠ 0 := h2tor x1 y1 e1
    have hPj : P.y ^ 2 = P.x ^ 3 - 3 * P.x * P.z ^ 4 + b * P.z ^ 6 := by
      rw [hPx, hPy]
      linear_combination P.z ^ 6 * e1
    obtain ⟨brx, bry, brz⟩ := double_bridge (b := b) P
    have hPe : (p384ShortW b).toJacobian.Equation (jfin P) := p384J_equation_iff.mpr hPj
    have hPz3 : jfin P 2 ≠ 0 := hPz
    have hyP : P.y ≠ 0 := by
      rw [hPy]
      exact mul_ne_zero hy1 (pow_ne_zero 3 hPz)
    have hyc : jfin P 1 * jfin P 2 ^ 3 ≠
        (p384ShortW b).toJacobian.negY (jfin P) * jfin P 2 ^ 3 := by
      rw [p384J_negY]
      simp only [jfin_y, jfin_z]
      intro hcc
      have h2y : (2 : K) * (P.y * P.z ^ 3) = 0 := by
        linear_combination hcc
      rcases mul_eq_zero.mp h2y with hc | hc
      · exact h2 hc
      · exact mul_ne_zero hyP (pow_ne_zero 3 hPz) hc
    have hXdiv1 : jfin P 0 / jfin P 2 ^ 2 = x1 := by
      simp only [jfin_x, jfin_z]
      rw [hPx]
      field_simp
    have hYdiv1 : jfin P 1 / jfin P 2 ^ 3 = y1 := by
      simp only [jfin_y, jfin_z]
      rw [hPy]
      field_simp
    have hZne : (p384ShortW b).toJacobian.dblZ (jfin P) ≠ 0 :=
      WeierstrassCurve.Jacobian.dblZ_ne_zero_of_Y_ne' hPe hPe hPz3 rfl hyc
    have haX := WeierstrassCurve.Jacobian.dblX_of_Z_ne_zero hPe hPe hPz3 hPz3 rfl hyc
    rw [hXdiv1, hYdiv1, div_eq_iff (pow_ne_zero 2 hZne)] at haX
    have haY := WeierstrassCurve.Jacobian.dblY_of_Z_ne_zero hPe hPe hPz3 hPz3 rfl hyc
    rw [hXdiv1, hYdiv1, div_eq_iff (pow_ne_zero 3 hZne)] at haY
    have hyne : y1 ≠ (p384W b).negY x1 y1 := by
      rw [p384W_negY]
      intro hcc
      have h2y : (2 : K) * y1 = 0 := by
        linear_combination hcc
      rcases mul_eq_zero.mp h2y with hc | hc
      · exact h2 hc
      · exact hy1 hc
    rw [WeierstrassCurve.Affine.Point.add_self_of_Y_ne hyne]
    refine Or.inr ⟨_, _, nonsingular_add h1 h1 (fun _ => hyne), rfl, ?_, ?_, ?_⟩
    · rw [brz]
      exact hZne
    · rw [brx, brz, haX]
    · rw [bry, brz, haY]

/-- Arithmetic form of the Jacobian curve membership of a lifted affine
operand. -/
lemma p384J_equation_afin {b : K} {R : affinePoint K} :
    (p384ShortW b).toJacobian.Equation (afin R) ↔
      R.y ^ 2 = R.x ^ 3 - 3 * R.x + b := by
  rw [WeierstrassCurve.Jacobian.equation_iff]
  simp only [afin_x, afin_y, afin_z, p384ShortW, WeierstrassCurve.toJacobian]
  constructor <;> intro h <;> linear_combination h

/-- Lifting an affine model point to Jacobian coordinates preserves the
represented point (for a curve with nonzero constant b, so that the
sentinel (0,0) does not lie on the curve). -/
lemma toJacobian_repr {b : K} (hb : b ≠ 0) {R : affinePoint K}
    {B : (p384W b).Point} (hRB : AffRepr b R B) : JacRepr b R.toJacobian B := by
  rcases hRB with ⟨hB, hx0, hy0⟩ | ⟨x2, y2, h2, hB, hx2, hy2⟩
  · subst hB
    have hR0 : R.isZero = true := by
      simp [affinePoint.isZero, hx0, hy0]
    rw [affinePoint.toJacobian, hR0]
    exact Or.inl ⟨rfl, rfl, one_ne_zero, one_ne_zero, by norm_num⟩
  · subst hB
    have e2 : y2 ^ 2 = x2 ^ 3 - 3 * x2 + b := p384W_equation_iff.mp h2.1
    have hR0 : R.isZero = false := by
      simp only [affinePoint.isZero, decide_eq_false_iff_not]
      rintro ⟨hxx, hyy⟩
      rw [hx2] at hxx
      rw [hy2] at hyy
      apply hb
      rw [hxx, hyy] at e2
      linear_combination -e2
    rw [affinePoint.toJacobian, hR0]
    simp only [Bool.false_eq_true, if_false]
    exact Or.inr ⟨x2, y2, h2, rfl, one_ne_zero, by rw [hx2]; ring, by rw [hy2]; ring⟩

/-- The mixed addition of the source computes the group sum on its whole
domain: both identity fast paths, the equal-point branch (falling through to
the doubling), the opposite-point branch (returning the identity encoding),
and the general mixed-addition formula. -/
lemma mixadd_repr {b : K} (hb : b ≠ 0) (h2 : (2 : K) ≠ 0)
    (h2tor : ∀ x y : K, y ^ 2 = x ^ 3 - 3 * x + b → y ≠ 0)
    {Q : jacobianPoint K} {R : affinePoint K} {A B : (p384W b).Point}
    (hQA : JacRepr b Q A) (hRB : AffRepr b R B) :
    JacRepr b (Q.mixadd R) (A + B) := by
  rcases hQA with ⟨hA, hQz, hQx, hQy, hQcu⟩ | ⟨x1, y1, h1, hA, hQz, hQx, hQy⟩
  · have hQ0 : Q.isZero = true := by
      simp [jacobianPoint.isZero, hQz, hQx, hQy]
    subst hA
    rw [zero_add]
    have hres : Q.mixadd R = R.toJacobian := by
      simp [jacobianPoint.mixadd, hQ0]
    rw [hres]
    exact toJacobian_repr hb hRB
  · have hQ0 : Q.isZero = false := by
      simp [jacobianPoint.isZero, hQz]
    have e1 : y1 ^ 2 = x1 ^ 3 - 3 * x1 + b := p384W_equation_iff.mp h1.1
    rcases hRB with ⟨hB, hx0, hy0⟩ | ⟨x2, y2, h2R, hB, hx2, hy2⟩
    · have hR0 : R.isZero = true := by
        simp [affinePoint.isZero, hx0, hy0]
      subst hA
      subst hB
      rw [add_zero]
      have hres : Q.mixadd R = Q := by
        simp [jacobianPoint.mixadd, hQ0, hR0]
      rw [hres]
      exact Or.inr ⟨x1, y1, h1, rfl, hQz, hQx, hQy⟩
    · subst hA
      subst hB
      have e2 : y2 ^ 2 = x2 ^ 3 - 3 * x2 + b := p384W_equation_iff.mp h2R.1
      have hR0 : R.isZero = false := by
        simp only [affinePoint.isZero, decide_eq_false_iff_not]
        rintro ⟨hxx, hyy⟩
        rw [hx2] at hxx
        rw [hy2] at hyy
        apply hb
        rw [hxx, hyy] at e2
        linear_combination -e2
      by_cases hxeq : Q.x = R.x * Q.z ^ 2
      · have hx12 : x1 = x2 := by
          rw [hQx, hx2] at hxeq
          exact mul_right_cancel₀ (pow_ne_zero 2 hQz) hxeq
        by_cases hyeq : Q.y = R.y * Q.z * Q.z ^ 2
        · have hy12 : y1 = y2 := by
            rw [hQy, hy2] at hyeq
            have hyy : y1 * Q.z ^ 3 = y2 * Q.z ^ 3 := by
              linear_combination hyeq
            exact mul_right_cancel₀ (pow_ne_zero 3 hQz) hyy
          have hres : Q.mixadd R = Q.double := by
            simp [jacobianPoint.mixadd, hQ0, hR0, hxeq, hyeq]
          rw [hres]
          have hAB : WeierstrassCurve.Affine.Point.some h2R =
              WeierstrassCurve.Affine.Point.some h1 :=
            somePoint_eq h2R h1 hx12.symm hy12.symm
          rw [← hAB.symm]  -- replace B with A
          exact double_repr h2 h2tor (Or.inr ⟨x1, y1, h1, rfl, hQz, hQx, hQy⟩)
        · have hy12 : y1 ≠ y2 := by
            intro hyy
            apply hyeq
            rw [hQy, hy2, hyy]
            ring
          have hyneg : y1 = (p384W b).negY x2 y2 := by
            rcases Y_eq_of_X_eq h1.1 h2R.1 hx12 with hyy | hyy
            · exact absurd hyy hy12
            · exact hyy
          rw [WeierstrassCurve.Affine.Point.add_of_Y_eq hx12 hyneg]
          have hres : Q.mixadd R = (zeroPoint (K := K)).toJacobian := by
            simp [jacobianPoint.mixadd, hQ0, hR0, hxeq, hyeq]
          rw [hres]
          have hz0 : (zeroPoint (K := K)).toJacobian =
              ({ x := 1, y := 1, z := 0 } : jacobianPoint K) := by
            simp [affinePoint.toJacobian, zeroPoint, affinePoint.isZero]
          rw [hz0]
          exact Or.inl ⟨rfl, rfl, one_ne_zero, one_ne_zero, by norm_num⟩
      · have hx12 : x1 ≠ x2 := by
          intro hxx
          apply hxeq
          rw [hQx, hx2, hxx]
        have hQj : Q.y ^ 2 = Q.x ^ 3 - 3 * Q.x * Q.z ^ 4 + b * Q.z ^ 6 := by
          rw [hQx, hQy]
          linear_combination Q.z ^ 6 * e1
        have hRj : R.y ^ 2 = R.x ^ 3 - 3 * R.x + b := by
          rw [hx2, hy2]
          exact e2
        obtain ⟨brx, bry, brz⟩ := mixadd_bridge hQ0 hR0 hxeq hQj hRj
        have hQe : (p384ShortW b).toJacobian.Equation (jfin Q) := p384J_equation_iff.mpr hQj
        have hRe : (p384ShortW b).toJacobian.Equation (afin R) := p384J_equation_afin.mpr hRj
        have hQz3 : jfin Q 2 ≠ 0 := hQz
        have hRz3 : afin R 2 ≠ 0 := one_ne_zero
        have hxc : jfin Q 0 * afin R 2 ^ 2 ≠ afin R 0 * jfin Q 2 ^ 2 := by
          simp only [jfin_x, jfin_z, afin_x, afin_z]
          intro hcc
          apply hxeq
          linear_combination hcc
        have hXdiv1 : jfin Q 0 / jfin Q 2 ^ 2 = x1 := by
          simp only [jfin_x, jfin_z]
          rw [hQx]
          field_simp
        have hYdiv1 : jfin Q 1 / jfin Q 2 ^ 3 = y1 := by
          simp only [jfin_y, jfin_z]
          rw [hQy]
          field_simp
        have hXdiv2 : afin R 0 / afin R 2 ^ 2 = x2 := by
          simp only [afin_x, afin_z]
          rw [hx2]
          field_simp
        have hYdiv2 : afin R 1 / afin R 2 ^ 3 = y2 := by
          simp only [afin_y, afin_z]
          rw [hy2]
          field_simp
        have hZne : WeierstrassCurve.Jacobian.addZ (jfin Q) (afin R) ≠ 0 :=
          WeierstrassCurve.Jacobian.addZ_ne_zero_of_X_ne hxc
        have haX := WeierstrassCurve.Jacobian.addX_of_Z_ne_zero hQe hRe hQz3 hRz3 hxc
        rw [hXdiv1, hXdiv2, hYdiv1, hYdiv2, div_eq_iff (pow_ne_zero 2 hZne)] at haX
        have haY := WeierstrassCurve.Jacobian.addY_of_Z_ne_zero hQe hRe hQz3 hRz3 hxc
        rw [hXdiv1, hXdiv2, hYdiv1, hYdiv2, div_eq_iff (pow_ne_zero 3 hZne)] at haY
        rw [WeierstrassCurve.Affine.Point.add_of_X_ne hx12]
        refine Or.inr ⟨_, _, nonsingular_add h1 h2R (fun h => (hx12 h).elim), rfl, ?_, ?_, ?_⟩
        · rw [brz]
          exact mul_ne_zero (neg_ne_zero.mpr hQz) hZne
        · rw [brx, brz, haX]
          ring
        · rw [bry, brz, haY]
          ring

end ReprLemmas

section Constants

/-- The P-384 prime 2^384 - 2^128 - 2^96 + 2^32 - 1. -/
def p384p : ℕ := 39402006196394479212279040100143613805079739270465446667948293404245721771496870329047266088258938001861606973112319

/-- The P-384 curve coefficient b. -/
def b384 : ZMod p384p := 27580193559959705877849011840389048093056905856361568521428707301988689241309860865136260764883745107765439761230575

/-- The P-384 base point, as a Jacobian model point with Z = 1. -/
def g384 : jacobianPoint (ZMod p384p) :=
  { x := 26247035095799689268623156744566981891852923491109213387815615900925518854738050089022388053975719786650872476732087,
    y := 8325710961489029985546751289520108179287853048861315594709205902480503199884419224438643760392947333078086511627871,
    z := 1 }

instance : Fact (Nat.Prime 13) := ⟨by norm_num⟩

end Constants

section EasyClaimsRing

variable {K : Type} [CommRing K] [DecidableEq K]

/-- C6 (amended): doubling any Jacobian identity encoding (Z = 0, X and Y
nonzero) always keeps Z = 0; the output coordinates are exactly
X3 = X(9X^3 - 8Y^2) = 9X^4 - 8XY^2 and Y3 = 36X^3Y^2 - 27X^6 - 8Y^4, so the
result stays an identity encoding with isZero() true exactly when those two
quantities are nonzero; this holds in particular for the encoding (1,1,0)
that the codebase produces, but not for every identity encoding. -/
theorem double_preserves_good_identity_encodings (P : jacobianPoint K)
    (hz : P.z = 0) (hx : P.x ≠ 0) (hy : P.y ≠ 0) :
    P.double.z = 0 ∧
    P.double.x = 9 * P.x ^ 4 - 8 * P.x * P.y ^ 2 ∧
    P.double.y = 36 * P.x ^ 3 * P.y ^ 2 - 27 * P.x ^ 6 - 8 * P.y ^ 4 ∧
    (P.double.isZero = true ↔
      (9 * P.x ^ 4 - 8 * P.x * P.y ^ 2 ≠ 0 ∧
        36 * P.x ^ 3 * P.y ^ 2 - 27 * P.x ^ 6 - 8 * P.y ^ 4 ≠ 0)) := by
  have hdx : P.double.x = 9 * P.x ^ 4 - 8 * P.x * P.y ^ 2 := by
    simp only [jacobianPoint.double]
    linear_combination (-18 * P.x ^ 2 * P.z ^ 3 + 9 * P.z ^ 7) * hz
  have hdy : P.double.y = 36 * P.x ^ 3 * P.y ^ 2 - 27 * P.x ^ 6 - 8 * P.y ^ 4 := by
    simp only [jacobianPoint.double]
    linear_combination (81 * P.x ^ 4 * P.z ^ 3 - 81 * P.x ^ 2 * P.z ^ 7
      - 36 * P.x * P.y ^ 2 * P.z ^ 3 + 27 * P.z ^ 11) * hz
  have hdz : P.double.z = 0 := by
    simp only [jacobianPoint.double]
    linear_combination (2 * P.y) * hz
  refine ⟨hdz, hdx, hdy, ?_⟩
  simp only [jacobianPoint.isZero, hdx, hdy, hdz]
  simp

/-- Witness for C6 (amended) at the codebase identity encoding (1,1,0) over
the P-384 field: the amended theorem applies and its biconditional, together
with the concrete nonzeroness of 9 - 8 and 36 - 27 - 8 = 1, gives
isZero() = true after the call. -/
theorem double_preserves_good_identity_encodings_witness :
    (({ x := 1, y := 1, z := 0 } : jacobianPoint (ZMod p384p)).z = 0 ∧
      ({ x := 1, y := 1, z := 0 } : jacobianPoint (ZMod p384p)).x ≠ 0 ∧
      ({ x := 1, y := 1, z := 0 } : jacobianPoint (ZMod p384p)).y ≠ 0) ∧
    (({ x := 1, y := 1, z := 0 } : jacobianPoint (ZMod p384p)).double.z = 0 ∧
      ({ x := 1, y := 1, z := 0 } : jacobianPoint (ZMod p384p)).double.x =
        9 * ({ x := 1, y := 1, z := 0 } : jacobianPoint (ZMod p384p)).x ^ 4
          - 8 * ({ x := 1, y := 1, z := 0 } : jacobianPoint (ZMod p384p)).x
            * ({ x := 1, y := 1, z := 0 } : jacobianPoint (ZMod p384p)).y ^ 2 ∧
      ({ x := 1, y := 1, z := 0 } : jacobianPoint (ZMod p384p)).double.y =
        36 * ({ x := 1, y := 1, z := 0 } : jacobianPoint (ZMod p384p)).x ^ 3
            * ({ x := 1, y := 1, z := 0 } : jacobianPoint (ZMod p384p)).y ^ 2
          - 27 * ({ x := 1, y := 1, z := 0 } : jacobianPoint (ZMod p384p)).x ^ 6
          - 8 * ({ x := 1, y := 1, z := 0 } : jacobianPoint (ZMod p384p)).y ^ 4 ∧
      (({ x := 1, y := 1, z := 0 } : jacobianPoint (ZMod p384p)).double.isZero = true ↔
        (9 * ({ x := 1, y := 1, z := 0 } : jacobianPoint (ZMod p384p)).x ^ 4
            - 8 * ({ x := 1, y := 1, z := 0 } : jacobianPoint (ZMod p384p)).x
              * ({ x := 1, y := 1, z := 0 } : jacobianPoint (ZMod p384p)).y ^ 2 ≠ 0 ∧
          36 * ({ x := 1, y := 1, z := 0 } : jacobianPoint (ZMod p384p)).x ^ 3
              * ({ x := 1, y := 1, z := 0 } : jacobianPoint (ZMod p384p)).y ^ 2
            - 27 * ({ x := 1, y := 1, z := 0 } : jacobianPoint (ZMod p384p)).x ^ 6
            - 8 * ({ x := 1, y := 1, z := 0 } : jacobianPoint (ZMod p384p)).y ^ 4 ≠ 0))) :=
  ⟨⟨by decide, by decide, by decide⟩,
    double_preserves_good_identity_encodings _ (by decide) (by decide) (by decide)⟩

/-- C6 (counterexample): the triple (2,3,0) over the P-384 field is an
identity encoding (Z = 0, X and Y nonzero), yet double() turns it into
(0, 216, 0), whose X coordinate is zero, so isZero() returns false after
the call: double does not preserve every identity encoding. -/
theorem double_identity_encoding_failure :
    (({ x := 2, y := 3, z := 0 } : jacobianPoint (ZMod p384p)).z = 0 ∧
      ({ x := 2, y := 3, z := 0 } : jacobianPoint (ZMod p384p)).x ≠ 0 ∧
      ({ x := 2, y := 3, z := 0 } : jacobianPoint (ZMod p384p)).y ≠ 0) ∧
    ({ x := 2, y := 3, z := 0 } : jacobianPoint (ZMod p384p)).double.x = 0 ∧
    ({ x := 2, y := 3, z := 0 } : jacobianPoint (ZMod p384p)).double.isZero = false := by
  refine ⟨⟨by decide, by decide, by decide⟩, by decide, by decide⟩

/-- C8: oddMultiples with a window size outside 2 <= w < 31 returns the
empty sequence of length 0 (a total, non-faulting degenerate result). -/
theorem oddMultiples_out_of_range_empty (P : affinePoint K) (w : ℕ)
    (hw : w < 2 ∨ 31 ≤ w) :
    P.oddMultiples w = [] ∧ (P.oddMultiples w).length = 0 := by
  have hcond : ¬ (1 < w ∧ w < 31) := by omega
  rw [affinePoint.oddMultiples, if_neg hcond]
  exact ⟨rfl, rfl⟩

/-- Witness for C8 at w = 0 over GF(13). -/
theorem oddMultiples_out_of_range_empty_witness :
    ((0 : ℕ) < 2 ∨ 31 ≤ (0 : ℕ)) ∧
    (({ x := 1, y := 2 } : affinePoint (ZMod 13)).oddMultiples 0 = [] ∧
      (({ x := 1, y := 2 } : affinePoint (ZMod 13)).oddMultiples 0).length = 0) :=
  ⟨by decide, oddMultiples_out_of_range_empty _ 0 (by decide)⟩

/-- C9: constructing an affine point from raw integers that are congruent to
zero in the field (in particular X = Y = 0) produces exactly the identity
sentinel (0,0), for which isZero() is true; every subsequent operation sees
this value as the point at infinity. -/
theorem newAffinePoint_zero_gives_identity_sentinel (X Y : ℤ)
    (hX : (X : K) = 0) (hY : (Y : K) = 0) :
    (newAffinePoint X Y : affinePoint K) = zeroPoint ∧
      (newAffinePoint X Y : affinePoint K).isZero = true := by
  have h : (newAffinePoint X Y : affinePoint K) = zeroPoint := by
    rw [newAffinePoint, zeroPoint, hX, hY]
  refine ⟨h, ?_⟩
  rw [h]
  simp [zeroPoint, affinePoint.isZero]

/-- Witness for C9 at X = 26, Y = 13 over GF(13). -/
theorem newAffinePoint_zero_gives_identity_sentinel_witness :
    (((26 : ℤ) : ZMod 13) = 0 ∧ ((13 : ℤ) : ZMod 13) = 0) ∧
    ((newAffinePoint 26 13 : affinePoint (ZMod 13)) = zeroPoint ∧
      (newAffinePoint 26 13 : affinePoint (ZMod 13)).isZero = true) :=
  ⟨⟨by decide, by decide⟩,
    newAffinePoint_zero_gives_identity_sentinel 26 13 (by decide) (by decide)⟩

end EasyClaimsRing

section EasyClaimsField

variable {K : Type} [Field K] [DecidableEq K]

/-- C2 (amended): for every Jacobian triple that is not an identity encoding,
add(P, P) makes the shared intermediate term H the field zero element and
stores the all-zero triple (0,0,0) in the receiver; this triple has Z = 0 but
is not a valid identity encoding, so isZero() on it returns false (not true);
converting it to affine with the field-layer inverse (which maps 0 to 0)
yields the affine identity sentinel (0,0). -/
theorem add_self_zeroes_H_and_receiver (Q : jacobianPoint K)
    (hQ : Q.isZero = false) :
    Q.addH Q = 0 ∧ Q.add Q = { x := 0, y := 0, z := 0 } ∧
      (Q.add Q).isZero = false ∧ (Q.add Q).toAffine = zeroPoint := by
  have h1 : Q.addH Q = 0 := sub_self _
  have h2 : Q.add Q = { x := 0, y := 0, z := 0 } := by
    simp only [jacobianPoint.add, hQ, Bool.false_eq_true, if_false,
      jacobianPoint.mk.injEq]
    refine ⟨by ring, by ring, by ring⟩
  refine ⟨h1, h2, ?_, ?_⟩
  · rw [h2]
    simp [jacobianPoint.isZero]
  · rw [h2]
    simp [jacobianPoint.toAffine, zeroPoint]

/-- Witness for C2 (amended) at a concrete non-identity point over GF(13). -/
theorem add_self_zeroes_H_and_receiver_witness :
    (({ x := 0, y := 1, z := 1 } : jacobianPoint (ZMod 13)).isZero = false) ∧
    (({ x := 0, y := 1, z := 1 } : jacobianPoint (ZMod 13)).addH
        { x := 0, y := 1, z := 1 } = 0 ∧
      ({ x := 0, y := 1, z := 1 } : jacobianPoint (ZMod 13)).add
          { x := 0, y := 1, z := 1 } = { x := 0, y := 0, z := 0 } ∧
      (({ x := 0, y := 1, z := 1 } : jacobianPoint (ZMod 13)).add
          { x := 0, y := 1, z := 1 }).isZero = false ∧
      (({ x := 0, y := 1, z := 1 } : jacobianPoint (ZMod 13)).add
          { x := 0, y := 1, z := 1 }).toAffine = zeroPoint) :=
  ⟨by decide, add_self_zeroes_H_and_receiver _ (by decide)⟩

/-- C2 (counterexample): at the P-384 base point G (which lies on the curve
and is not the identity), add(G, G) stores (0,0,0) in the receiver, and
isZero() on the result returns false, contradicting the claim that the
result satisfies isZero() = true. -/
theorem add_self_isZero_false_on_base_point :
    g384.y ^ 2 = g384.x ^ 3 - 3 * g384.x + b384 ∧
    g384.isZero = false ∧
    g384.addH g384 = 0 ∧
    g384.add g384 = { x := 0, y := 0, z := 0 } ∧
    (g384.add g384).isZero = false := by
  refine ⟨by decide, by decide, by decide, by decide, by decide⟩

/-- C7: for every non-identity affine point, lifting to Jacobian coordinates
and projecting back to affine, and lifting to homogeneous coordinates and
projecting back to affine, both reproduce the original coordinates exactly. -/
theorem affine_roundtrip_exact (P : affinePoint K) (hP : P.isZero = false) :
    P.toJacobian.toAffine = P ∧ P.toHomogeneous.toAffine = P := by
  rcases P with ⟨px, py⟩
  constructor
  · simp [affinePoint.toJacobian, jacobianPoint.toAffine, hP]
  · simp [affinePoint.toHomogeneous, homogeneousPoint.toAffine, hP]

/-- Witness for C7 at a concrete point over GF(13). -/
theorem affine_roundtrip_exact_witness :
    (({ x := 1, y := 2 } : affinePoint (ZMod 13)).isZero = false) ∧
    (({ x := 1, y := 2 } : affinePoint (ZMod 13)).toJacobian.toAffine
        = { x := 1, y := 2 } ∧
      ({ x := 1, y := 2 } : affinePoint (ZMod 13)).toHomogeneous.toAffine
        = { x := 1, y := 2 }) :=
  ⟨by decide, affine_roundtrip_exact _ (by decide)⟩

end EasyClaimsField

section OddMultiples

open WeierstrassCurve.Affine

variable {K : Type} [Field K] [DecidableEq K]

/-- Invariant of the table loop: the i-th iterate represents (2i+1) times the
base point, provided no multiple of the base point up to the bound N is the
identity. -/
lemma oddIter_repr {b : K} (hb : b ≠ 0) (h2 : (2 : K) ≠ 0)
    (h2tor : ∀ x y : K, y ^ 2 = x ^ 3 - 3 * x + b → y ≠ 0)
    {P : affinePoint K} {A : (p384W b).Point} (hPA : AffRepr b P A)
    {s N : ℕ} (hN : 2 * s ≤ N)
    (hord : ∀ k : ℕ, 1 ≤ k → k ≤ N → k • A ≠ 0) :
    ∀ i, i < s →
      JacRepr b (jacobianPoint.oddIter P.toJacobian P.toJacobian.double i)
        ((2 * i + 1) • A) := by
  intro i
  induction i with
  | zero =>
    intro _
    have h1 : 2 * 0 + 1 = 1 := rfl
    rw [h1, one_smul]
    exact toJacobian_repr hb hPA
  | succ j ih =>
    intro hji
    have hj : j < s := Nat.lt_of_succ_lt hji
    have hrep1 := ih hj
    have hrep2 : JacRepr b P.toJacobian.double ((2 : ℕ) • A) := by
      rw [two_nsmul]
      exact double_repr h2 h2tor (toJacobian_repr hb hPA)
    have hne : (2 * j + 1) • A ≠ (2 : ℕ) • A := by
      intro heq
      have hz2 : (((2 * j + 1 : ℕ) : ℤ) - ((2 : ℕ) : ℤ)) • A = 0 := by
        rw [sub_zsmul, natCast_zsmul, natCast_zsmul, heq]
        simp
      rcases j with _ | m
      · have hc : ((2 * 0 + 1 : ℕ) : ℤ) - ((2 : ℕ) : ℤ) = -1 := by
          omega
        rw [hc, neg_zsmul, one_zsmul, neg_eq_zero] at hz2
        exact hord 1 le_rfl (by omega) (by rw [one_smul]; exact hz2)
      · have hc : ((2 * (m + 1) + 1 : ℕ) : ℤ) - ((2 : ℕ) : ℤ) = ((2 * m + 1 : ℕ) : ℤ) := by
          push_cast
          ring
        rw [hc, natCast_zsmul] at hz2
        exact hord (2 * m + 1) (by omega) (by omega) hz2
    have hneg : (2 * j + 1) • A ≠ -((2 : ℕ) • A) := by
      intro heq
      have hzz : ((2 * j + 3 : ℕ) : ℤ) • A = 0 := by
        have hc : ((2 * j + 3 : ℕ) : ℤ) = ((2 * j + 1 : ℕ) : ℤ) + ((2 : ℕ) : ℤ) := by
          omega
        rw [hc, add_zsmul, natCast_zsmul, natCast_zsmul, heq, neg_add_cancel]
      rw [natCast_zsmul] at hzz
      exact hord (2 * j + 3) (by omega) (by omega) hzz
    have hres := jacAdd_repr hrep1 hrep2 hne hneg
    have hstep : jacobianPoint.oddIter P.toJacobian P.toJacobian.double (j + 1) =
        (jacobianPoint.oddIter P.toJacobian P.toJacobian.double j).add
          P.toJacobian.double := rfl
    rw [hstep]
    have hcoef : (2 * (j + 1) + 1) • A = (2 * j + 1) • A + (2 : ℕ) • A := by
      have harith : 2 * (j + 1) + 1 = 2 * j + 1 + 2 := by omega
      rw [harith]
      exact add_nsmul A (2 * j + 1) 2
    rw [hcoef]
    exact hres

/-- C3: for a base point of order larger than 2^w and a window size w with
2 <= w < 31, oddMultiples returns exactly 2^(w-1) Jacobian points whose j-th
entry represents the scalar multiple (2j+1) times the base point, i.e. the
sequence P, 3P, 5P, ..., (2^w - 1)P.  The order hypothesis is stated as:
no multiple kP with 1 <= k <= 2^w is the identity. -/
theorem oddMultiples_entries_represent_odd_multiples {b : K} (hb : b ≠ 0)
    (h2 : (2 : K) ≠ 0)
    (h2tor : ∀ x y : K, y ^ 2 = x ^ 3 - 3 * x + b → y ≠ 0)
    {P : affinePoint K} {A : (p384W b).Point} (hPA : AffRepr b P A)
    {w : ℕ} (hw1 : 2 ≤ w) (hw2 : w < 31)
    (hord : ∀ k : ℕ, 1 ≤ k → k ≤ 2 ^ w → k • A ≠ 0) :
    (P.oddMultiples w).length = 2 ^ (w - 1) ∧
    ∀ (j : ℕ) (hj : j < (P.oddMultiples w).length),
      JacRepr b ((P.oddMultiples w).get ⟨j, hj⟩) ((2 * j + 1) • A) := by
  have hcond : 1 < w ∧ w < 31 := ⟨by omega, hw2⟩
  have hlist : P.oddMultiples w =
      (List.range (2 ^ (w - 1))).map
        (jacobianPoint.oddIter P.toJacobian P.toJacobian.double) := by
    rw [affinePoint.oddMultiples, if_pos hcond]
  have hlen : (P.oddMultiples w).length = 2 ^ (w - 1) := by
    rw [hlist]
    simp
  refine ⟨hlen, ?_⟩
  intro j hj
  have hjs : j < 2 ^ (w - 1) := by
    rw [hlen] at hj
    exact hj
  have hNs : 2 * 2 ^ (w - 1) ≤ 2 ^ w := by
    have hw : w - 1 + 1 = w := by omega
    have hpow : 2 ^ (w - 1 + 1) = 2 * 2 ^ (w - 1) := by
      rw [pow_succ]
      ring
    rw [hw] at hpow
    omega
  have hval : (P.oddMultiples w).get ⟨j, hj⟩ =
      jacobianPoint.oddIter P.toJacobian P.toJacobian.double j := by
    rw [List.get_eq_getElem]
    simp only [hlist, List.getElem_map, List.getElem_range]
  rw [hval]
  exact oddIter_repr hb h2 h2tor hPA hNs hord j hjs

end OddMultiples

section Witness13

open WeierstrassCurve.Affine

/-- The witness curve y^2 = x^3 - 3x + 1 over GF(13) has no two-torsion and
its base point (0,1) generates a group of order 19; the following lemmas
record the concrete small multiples needed by the witnesses. -/
lemma ns13_A : (p384W (1 : ZMod 13)).Nonsingular 0 1 :=
  p384W_nonsingular (by decide) (by decide) (by decide)

lemma ns13_2A : (p384W (1 : ZMod 13)).Nonsingular 12 4 :=
  p384W_nonsingular (by decide) (by decide) (by decide)

lemma ns13_3A : (p384W (1 : ZMod 13)).Nonsingular 10 3 :=
  p384W_nonsingular (by decide) (by decide) (by decide)

/-- The base point (0,1) of the witness curve as a Mathlib point. -/
abbrev A13 : (p384W (1 : ZMod 13)).Point :=
  WeierstrassCurve.Affine.Point.some ns13_A

lemma hy13ne : (1 : ZMod 13) ≠ (p384W (1 : ZMod 13)).negY 0 1 := by
  rw [p384W_negY]
  decide

lemma slope13_AA : (p384W (1 : ZMod 13)).slope 0 0 1 1 = 5 := by
  have hden : (1 : ZMod 13) - (p384W (1 : ZMod 13)).negY 0 1 ≠ 0 := by
    rw [p384W_negY]
    decide
  rw [WeierstrassCurve.Affine.slope_of_Y_ne rfl hy13ne, div_eq_iff hden, p384W_negY]
  simp only [p384W, p384ShortW, WeierstrassCurve.toAffine]
  decide

lemma A13_two : (2 : ℕ) • A13 = WeierstrassCurve.Affine.Point.some ns13_2A := by
  rw [two_nsmul]
  rw [WeierstrassCurve.Affine.Point.add_self_of_Y_ne hy13ne]
  refine somePoint_eq _ ns13_2A ?_ ?_
  · rw [slope13_AA]
    simp only [WeierstrassCurve.Affine.addX, p384W, p384ShortW, WeierstrassCurve.toAffine]
    decide
  · rw [slope13_AA]
    simp only [WeierstrassCurve.Affine.addY, WeierstrassCurve.Affine.negAddY,
      WeierstrassCurve.Affine.addX, WeierstrassCurve.Affine.negY,
      p384W, p384ShortW, WeierstrassCurve.toAffine]
    decide

lemma slope13_2A_A : (p384W (1 : ZMod 13)).slope 12 0 4 1 = 10 := by
  have hden : (12 : ZMod 13) - 0 ≠ 0 := by decide
  rw [WeierstrassCurve.Affine.slope_of_X_ne (by decide), div_eq_iff hden]
  decide

lemma A13_three : (3 : ℕ) • A13 = WeierstrassCurve.Affine.Point.some ns13_3A := by
  have h3 : (3 : ℕ) = 2 + 1 := rfl
  rw [h3, succ_nsmul, A13_two]
  rw [WeierstrassCurve.Affine.Point.add_of_X_ne (by decide : (12 : ZMod 13) ≠ 0)]
  refine somePoint_eq _ ns13_3A ?_ ?_
  · rw [slope13_2A_A]
    simp only [WeierstrassCurve.Affine.addX, p384W, p384ShortW, WeierstrassCurve.toAffine]
    decide
  · rw [slope13_2A_A]
    simp only [WeierstrassCurve.Affine.addY, WeierstrassCurve.Affine.negAddY,
      WeierstrassCurve.Affine.addX, WeierstrassCurve.Affine.negY,
      p384W, p384ShortW, WeierstrassCurve.toAffine]
    decide

lemma A13_ord : ∀ k : ℕ, 1 ≤ k → k ≤ 2 ^ 2 → k • A13 ≠ 0 := by
  intro k h1 h4
  interval_cases k
  · rw [one_smul]
    exact WeierstrassCurve.Affine.Point.some_ne_zero ns13_A
  · rw [A13_two]
    exact WeierstrassCurve.Affine.Point.some_ne_zero ns13_2A
  · rw [A13_three]
    exact WeierstrassCurve.Affine.Point.some_ne_zero ns13_3A
  · have h4eq : (4 : ℕ) = 3 + 1 := rfl
    rw [h4eq, succ_nsmul, A13_three]
    rw [WeierstrassCurve.Affine.Point.add_of_X_ne (by decide : (10 : ZMod 13) ≠ 0)]
    exact WeierstrassCurve.Affine.Point.some_ne_zero _

/-- Witness for C3 at the GF(13) witness curve with base point (0,1) and
window size 2. -/
theorem oddMultiples_entries_witness :
    (∀ x y : ZMod 13, y ^ 2 = x ^ 3 - 3 * x + 1 → y ≠ 0) ∧
    ((({ x := 0, y := 1 } : affinePoint (ZMod 13)).oddMultiples 2).length = 2 ^ (2 - 1) ∧
      ∀ (j : ℕ) (hj : j < (({ x := 0, y := 1 } : affinePoint (ZMod 13)).oddMultiples 2).length),
        JacRepr 1 ((({ x := 0, y := 1 } : affinePoint (ZMod 13)).oddMultiples 2).get ⟨j, hj⟩)
          ((2 * j + 1) • A13)) :=
  ⟨by decide,
    oddMultiples_entries_represent_odd_multiples (by decide) (by decide) (by decide)
      (Or.inr ⟨0, 1, ns13_A, rfl, rfl, rfl⟩) (by norm_num) (by norm_num) A13_ord⟩

end Witness13

section ClaimC4

open WeierstrassCurve.Affine

variable {K : Type} [Field K] [DecidableEq K]

/-- C4: for every represented Jacobian point Q and affine point R,
mixadd(Q, R) computes the group sum Q + R on its whole domain: if Q is the
identity the result is R lifted to Jacobian; if R is the identity the
result is Q; if Q represents the same affine point as R the result is the
doubling of Q; if Q represents -R the result is the identity; otherwise the
ordinary mixed addition.  The hypotheses record the facts of the P-384
curve: b is nonzero, 2 is invertible, and the curve has no rational
two-torsion. -/
theorem mixadd_computes_group_sum {b : K} (hb : b ≠ 0) (h2 : (2 : K) ≠ 0)
    (h2tor : ∀ x y : K, y ^ 2 = x ^ 3 - 3 * x + b → y ≠ 0)
    {Q : jacobianPoint K} {R : affinePoint K} {A B : (p384W b).Point}
    (hQA : JacRepr b Q A) (hRB : AffRepr b R B) :
    JacRepr b (Q.mixadd R) (A + B) :=
  mixadd_repr hb h2 h2tor hQA hRB

/-- Witness for C4 at the GF(13) witness curve: the Jacobian lift of (0,1)
mixed-added with the affine point (12,4). -/
theorem mixadd_computes_group_sum_witness :
    (∀ x y : ZMod 13, y ^ 2 = x ^ 3 - 3 * x + 1 → y ≠ 0) ∧
    JacRepr 1 (({ x := 0, y := 1, z := 1 } : jacobianPoint (ZMod 13)).mixadd
        { x := 12, y := 4 })
      (A13 + WeierstrassCurve.Affine.Point.some ns13_2A) :=
  ⟨by decide,
    mixadd_computes_group_sum (by decide) (by decide) (by decide)
      (Or.inr ⟨0, 1, ns13_A, rfl, by decide, by decide, by decide⟩)
      (Or.inr ⟨12, 4, ns13_2A, rfl, rfl, rfl⟩)⟩

end ClaimC4

section ClaimC5

variable {K : Type} [CommRing K] [DecidableEq K]

/-- Modelled from the spec: the standard complete addition law for a short
Weierstrass curve with coefficient a = 0, with the curve coefficient b
entering as a public constant (the closed form of the complete
bidegree-(2,2) addition law specialized to a = 0). -/
def specCompleteAddA0 (b : K) (Q R : homogeneousPoint K) : homogeneousPoint K :=
  { x := (Q.x * R.y + R.x * Q.y) * (Q.y * R.y - 3 * b * Q.z * R.z)
      - 3 * b * (Q.y * R.z + R.y * Q.z) * (Q.x * R.z + R.x * Q.z),
    y := (Q.y * R.y + 3 * b * Q.z * R.z) * (Q.y * R.y - 3 * b * Q.z * R.z)
      + 9 * b * Q.x * R.x * (Q.x * R.z + R.x * Q.z),
    z := (Q.y * R.z + R.y * Q.z) * (Q.y * R.y + 3 * b * Q.z * R.z)
      + 3 * Q.x * R.x * (Q.x * R.y + R.x * Q.y) }

/-- The closed form of the standard complete addition law for a short
Weierstrass curve with coefficient a = -3 (the P-384 coefficient), with b a
public constant; the comparison target of the amended claim. -/
def specCompleteAddAm3 (b : K) (Q R : homogeneousPoint K) : homogeneousPoint K :=
  { x := (Q.x * R.y + R.x * Q.y)
        * (Q.y * R.y + 3 * (Q.x * R.z + R.x * Q.z) - 3 * b * Q.z * R.z)
      - (Q.y * R.z + R.y * Q.z)
        * (-3 * (Q.x * R.x) + 3 * b * (Q.x * R.z + R.x * Q.z) - 9 * (Q.z * R.z)),
    y := (3 * (Q.x * R.x) - 3 * (Q.z * R.z))
        * (-3 * (Q.x * R.x) + 3 * b * (Q.x * R.z + R.x * Q.z) - 9 * (Q.z * R.z))
      + (Q.y * R.y - 3 * (Q.x * R.z + R.x * Q.z) + 3 * b * Q.z * R.z)
        * (Q.y * R.y + 3 * (Q.x * R.z + R.x * Q.z) - 3 * b * Q.z * R.z),
    z := (Q.y * R.z + R.y * Q.z)
        * (Q.y * R.y - 3 * (Q.x * R.z + R.x * Q.z) + 3 * b * Q.z * R.z)
      + (Q.x * R.y + R.x * Q.y) * (3 * (Q.x * R.x) - 3 * (Q.z * R.z)) }

/-- C5 (amended): the 43-step field-operation sequence of completeAdd
computes, coordinate for coordinate, exactly the closed form of the standard
complete addition law for a short Weierstrass curve with coefficient a = -3
(not a = 0): the two are equal as polynomial maps on all inputs, in every
commutative ring. -/
theorem completeAdd_is_am3_closed_form (b : K) (Q R : homogeneousPoint K) :
    Q.completeAdd b R = specCompleteAddAm3 b Q R := by
  simp only [homogeneousPoint.completeAdd, specCompleteAddAm3,
    homogeneousPoint.mk.injEq]
  refine ⟨by ring, by ring, by ring⟩

/-- C5 (counterexample): at the input pair ((1,1,1), (1,1,1)) over the
P-384 field with the P-384 coefficient b, the output of completeAdd and the
output of the a = 0 complete addition law are not projectively equal: no
nonzero scalar relates them, because the cross product of their x and z
coordinates differs. -/
theorem completeAdd_differs_from_a0_law :
    ¬ ∃ lam : ZMod p384p, lam ≠ 0 ∧
      specCompleteAddA0 b384 { x := 1, y := 1, z := 1 } { x := 1, y := 1, z := 1 } =
        { x := lam * (homogeneousPoint.completeAdd b384
            { x := 1, y := 1, z := 1 } { x := 1, y := 1, z := 1 }).x,
          y := lam * (homogeneousPoint.completeAdd b384
            { x := 1, y := 1, z := 1 } { x := 1, y := 1, z := 1 }).y,
          z := lam * (homogeneousPoint.completeAdd b384
            { x := 1, y := 1, z := 1 } { x := 1, y := 1, z := 1 }).z } := by
  rintro ⟨lam, hlam, heq⟩
  have hx := congrArg homogeneousPoint.x heq
  have hz := congrArg homogeneousPoint.z heq
  have hcross : (specCompleteAddA0 b384 { x := 1, y := 1, z := 1 }
        { x := 1, y := 1, z := 1 }).x *
      (homogeneousPoint.completeAdd b384 { x := 1, y := 1, z := 1 }
        { x := 1, y := 1, z := 1 }).z =
      (specCompleteAddA0 b384 { x := 1, y := 1, z := 1 }
        { x := 1, y := 1, z := 1 }).z *
      (homogeneousPoint.completeAdd b384 { x := 1, y := 1, z := 1 }
        { x := 1, y := 1, z := 1 }).x := by
    rw [hx, hz]
    ring
  revert hcross
  decide

end ClaimC5

section ClaimC10

variable {K : Type} [CommRing K] [DecidableEq K]

/-- Heap-level model of the Go call `P.completeAdd(Q, R)` (point.go lines
308-357), faithful to its memory behavior: `pP`, `pQ`, `pR` are the three
pointers (which may alias in any combination: Q or R or both may be the
same object as the receiver P); every field operation dereferences its
operand pointers at the time it executes (each occurrence of `(h pQ).x`
and so on below is one such read); the temporaries `t0..t4, X3, Y3, Z3` are
function-local fresh allocations; and the heap is written exactly once, by
the final simultaneous assignment `P.x, P.y, P.z = *X3, *Y3, *Z3` of
line 356, modelled by the single `Function.update`. -/
def completeAddOnHeap (b : K) (pP pQ pR : ℕ) (h : ℕ → homogeneousPoint K) :
    ℕ → homogeneousPoint K :=
  let t0 := (h pQ).x * (h pR).x
  let t1 := (h pQ).y * (h pR).y
  let t2 := (h pQ).z * (h pR).z
  let t3 := (h pQ).x + (h pQ).y
  let t4 := (h pR).x + (h pR).y
  let t3 := t3 * t4
  let t4 := t0 + t1
  let t3 := t3 - t4
  let t4 := (h pQ).y + (h pQ).z
  let X3 := (h pR).y + (h pR).z
  let t4 := t4 * X3
  let X3 := t1 + t2
  let t4 := t4 - X3
  let X3 := (h pQ).x + (h pQ).z
  let Y3 := (h pR).x + (h pR).z
  let X3 := X3 * Y3
  let Y3 := t0 + t2
  let Y3 := X3 - Y3
  let Z3 := b * t2
  let X3 := Y3 - Z3
  let Z3 := X3 + X3
  let X3 := X3 + Z3
  let Z3 := t1 - X3
  let X3 := t1 + X3
  let Y3 := b * Y3
  let t1 := t2 + t2
  let t2 := t1 + t2
  let Y3 := Y3 - t2
  let Y3 := Y3 - t0
  let t1 := Y3 + Y3
  let Y3 := t1 + Y3
  let t1 := t0 + t0
  let t0 := t1 + t0
  let t0 := t0 - t2
  let t1 := t4 * Y3
  let t2 := t0 * Y3
  let Y3 := X3 * Z3
  let Y3 := Y3 + t2
  let X3 := t3 * X3
  let X3 := X3 - t1
  let Z3 := t4 * Z3
  let t1 := t3 * t0
  let Z3 := Z3 + t1
  Function.update h pP { x := X3, y := Y3, z := Z3 }

/-- C10: completeAdd is aliasing-safe: for every heap and every choice of
the three pointers (in particular when the receiver is the same object as
Q, as R, or as both), after the call the receiver object holds exactly the
coordinates that the pure function computes from copies of the initial
values of Q and R, and no other object changes; this holds because the
whole result is computed in temporaries and the receiver is written only by
the final assignment. -/
theorem completeAdd_alias_safe (b : K) (pP pQ pR : ℕ)
    (h : ℕ → homogeneousPoint K) :
    completeAddOnHeap b pP pQ pR h pP = (h pQ).completeAdd b (h pR) ∧
    ∀ q, q ≠ pP → completeAddOnHeap b pP pQ pR h q = h q := by
  constructor
  · rw [completeAddOnHeap, Function.update_same]
    rfl
  · intro q hq
    rw [completeAddOnHeap]
    exact Function.update_noteq hq _ _

end ClaimC10

section CompleteAddLemmas

variable {K : Type} [CommRing K] [DecidableEq K]

/-- Scaling both homogeneous operands scales the completeAdd output by the
square of the product of the scalars (the formula is bihomogeneous of
bidegree (2,2)). -/
lemma completeAdd_scale (b l m : K) (Q R : homogeneousPoint K) :
    homogeneousPoint.completeAdd b
        { x := l * Q.x, y := l * Q.y, z := l * Q.z }
        { x := m * R.x, y := m * R.y, z := m * R.z } =
      { x := (l * m) ^ 2 * (Q.completeAdd b R).x,
        y := (l * m) ^ 2 * (Q.completeAdd b R).y,
        z := (l * m) ^ 2 * (Q.completeAdd b R).z } := by
  simp only [homogeneousPoint.completeAdd, homogeneousPoint.mk.injEq]
  refine ⟨by ring, by ring, by ring⟩

/-- completeAdd with an identity encoding (0, w, 0) as the left operand
returns the right operand scaled by w^2 times its y-coordinate. -/
lemma completeAdd_idLeft (b : K) (Q R : homogeneousPoint K)
    (hx : Q.x = 0) (hz : Q.z = 0) :
    Q.completeAdd b R =
      { x := Q.y ^ 2 * (R.y * R.x), y := Q.y ^ 2 * (R.y * R.y),
        z := Q.y ^ 2 * (R.y * R.z) } := by
  simp only [homogeneousPoint.completeAdd, homogeneousPoint.mk.injEq]
  refine ⟨?_, ?_, ?_⟩
  · linear_combination (3 * Q.x * R.y * R.z + 6 * Q.y * R.x * R.z + Q.y * R.y ^ 2
      - 3 * Q.y * R.z ^ 2 * b + 6 * Q.z * R.x * R.y - 6 * Q.z * R.y * R.z * b) * hx +
      (3 * Q.y * R.x ^ 2 - 6 * Q.y * R.x * R.z * b + 9 * Q.y * R.z ^ 2
        - 3 * Q.z * R.x * R.y * b + 9 * Q.z * R.y * R.z) * hz
  · linear_combination (-9 * Q.x * R.x ^ 2 + 9 * Q.x * R.x * R.z * b - 9 * Q.x * R.z ^ 2
      + 9 * Q.z * R.x ^ 2 * b - 36 * Q.z * R.x * R.z + 9 * Q.z * R.z ^ 2 * b) * hx +
      (-9 * Q.z * R.x ^ 2 + 9 * Q.z * R.x * R.z * b - 9 * Q.z * R.z ^ 2 * b ^ 2
        + 27 * Q.z * R.z ^ 2) * hz
  · linear_combination (3 * Q.x * R.x * R.y + 3 * Q.y * R.x ^ 2 - 3 * Q.y * R.z ^ 2
      - 6 * Q.z * R.y * R.z) * hx +
      (-6 * Q.y * R.x * R.z + Q.y * R.y ^ 2 + 3 * Q.y * R.z ^ 2 * b
        - 3 * Q.z * R.x * R.y + 3 * Q.z * R.y * R.z * b) * hz

/-- completeAdd with an identity encoding (0, w, 0) as the right operand
returns the left operand scaled by w^2 times its y-coordinate. -/
lemma completeAdd_idRight (b : K) (Q R : homogeneousPoint K)
    (hx : R.x = 0) (hz : R.z = 0) :
    Q.completeAdd b R =
      { x := R.y ^ 2 * (Q.y * Q.x), y := R.y ^ 2 * (Q.y * Q.y),
        z := R.y ^ 2 * (Q.y * Q.z) } := by
  simp only [homogeneousPoint.completeAdd, homogeneousPoint.mk.injEq]
  refine ⟨?_, ?_, ?_⟩
  · linear_combination (6 * Q.x * Q.y * R.z + 6 * Q.x * Q.z * R.y + Q.y ^ 2 * R.y
      + 3 * Q.y * Q.z * R.x - 6 * Q.y * Q.z * R.z * b - 3 * Q.z ^ 2 * R.y * b) * hx +
      (3 * Q.x ^ 2 * R.y - 3 * Q.x * Q.y * R.z * b - 6 * Q.x * Q.z * R.y * b
        + 9 * Q.y * Q.z * R.z + 9 * Q.z ^ 2 * R.y) * hz
  · linear_combination (-9 * Q.x ^ 2 * R.x + 9 * Q.x ^ 2 * R.z * b + 9 * Q.x * Q.z * R.x * b
      - 36 * Q.x * Q.z * R.z - 9 * Q.z ^ 2 * R.x + 9 * Q.z ^ 2 * R.z * b) * hx +
      (-9 * Q.x ^ 2 * R.z + 9 * Q.x * Q.z * R.z * b - 9 * Q.z ^ 2 * R.z * b ^ 2
        + 27 * Q.z ^ 2 * R.z) * hz
  · linear_combination (3 * Q.x ^ 2 * R.y + 3 * Q.x * Q.y * R.x - 6 * Q.y * Q.z * R.z
      - 3 * Q.z ^ 2 * R.y) * hx +
      (-3 * Q.x * Q.y * R.z - 6 * Q.x * Q.z * R.y + Q.y ^ 2 * R.y + 3 * Q.y * Q.z * R.z * b
        + 3 * Q.z ^ 2 * R.y * b) * hz

/-- The z-coordinate of completeAdd on two distinct normalized finite points
equals minus the numerator of the y-coordinate of the difference of the two
points. -/
lemma completeAdd_gen_z (b x1 y1 x2 y2 : K)
    (e1 : y1 ^ 2 = x1 ^ 3 - 3 * x1 + b) (e2 : y2 ^ 2 = x2 ^ 3 - 3 * x2 + b) :
    (homogeneousPoint.completeAdd b { x := x1, y := y1, z := 1 }
        { x := x2, y := y2, z := 1 }).z =
      -((y1 + y2) * (x1 * (x1 - x2) ^ 2
          - ((y1 + y2) ^ 2 - (x1 + x2) * (x1 - x2) ^ 2)) - y1 * (x1 - x2) ^ 3) := by
  simp only [homogeneousPoint.completeAdd]
  linear_combination (-y1 - 2 * y2) * e1 + (-2 * y1 - y2) * e2

/-- The x-coordinate of completeAdd on two normalized finite points, scaled
by (x1 - x2)^2, equals the z-coordinate times the numerator of the affine
sum x-coordinate. -/
lemma completeAdd_gen_x (b x1 y1 x2 y2 : K)
    (e1 : y1 ^ 2 = x1 ^ 3 - 3 * x1 + b) (e2 : y2 ^ 2 = x2 ^ 3 - 3 * x2 + b) :
    (homogeneousPoint.completeAdd b { x := x1, y := y1, z := 1 }
        { x := x2, y := y2, z := 1 }).x * (x1 - x2) ^ 2 =
      (homogeneousPoint.completeAdd b { x := x1, y := y1, z := 1 }
        { x := x2, y := y2, z := 1 }).z *
        ((y1 - y2) ^ 2 - (x1 + x2) * (x1 - x2) ^ 2) := by
  simp only [homogeneousPoint.completeAdd]
  linear_combination (-3 * x1 ^ 2 * x2 * y2 - 3 * x1 * y1 * x2 ^ 2 + 3 * x1 * y1
      + 3 * x1 * x2 ^ 2 * y2 + 3 * x1 * y2 - y1 ^ 2 * y2 + 6 * y1 * x2 + y1 * y2 ^ 2
      - 3 * y1 * b + 2 * x2 ^ 3 * y2 - 9 * x2 * y2 + y2 ^ 3 + 2 * y2 * b) * e1 +
    (3 * x1 ^ 3 * y1 + x1 ^ 3 * y2 + 3 * x1 ^ 2 * y1 * x2 - 3 * x1 ^ 2 * x2 * y2
      - 3 * x1 * y1 * x2 ^ 2 - 12 * x1 * y1 + 3 * x1 * y2 + 3 * y1 * x2 - y1 * y2 ^ 2
      + 3 * y1 * b + 3 * x2 * y2 - 2 * y2 * b) * e2

/-- The y-coordinate of completeAdd on two normalized finite points, scaled
by (x1 - x2)^3, equals the z-coordinate times the numerator of the affine
sum y-coordinate. -/
lemma completeAdd_gen_y (b x1 y1 x2 y2 : K)
    (e1 : y1 ^ 2 = x1 ^ 3 - 3 * x1 + b) (e2 : y2 ^ 2 = x2 ^ 3 - 3 * x2 + b) :
    (homogeneousPoint.completeAdd b { x := x1, y := y1, z := 1 }
        { x := x2, y := y2, z := 1 }).y * (x1 - x2) ^ 3 =
      (homogeneousPoint.completeAdd b { x := x1, y := y1, z := 1 }
        { x := x2, y := y2, z := 1 }).z *
        ((y1 - y2) * (x1 * (x1 - x2) ^ 2
            - ((y1 - y2) ^ 2 - (x1 + x2) * (x1 - x2) ^ 2)) - y1 * (x1 - x2) ^ 3) := by
  simp only [homogeneousPoint.completeAdd]
  linear_combination (3 * x1 ^ 2 * y1 * x2 * y2 + 9 * x1 ^ 2 * x2 ^ 4 - 18 * x1 ^ 2 * x2 ^ 2
      - 15 * x1 ^ 2 * x2 * y2 ^ 2 + 9 * x1 ^ 2 + 3 * x1 * y1 ^ 2 * x2 ^ 2 - 3 * x1 * y1 ^ 2
      - 6 * x1 * y1 * x2 ^ 2 * y2 - 6 * x1 * x2 ^ 5 - 12 * x1 * x2 ^ 3
      + 15 * x1 * x2 ^ 2 * y2 ^ 2 + 12 * x1 * x2 ^ 2 * b + 18 * x1 * x2 + 15 * x1 * y2 ^ 2
      - 12 * x1 * b + y1 ^ 3 * y2 - 6 * y1 ^ 2 * x2 - 2 * y1 ^ 2 * y2 ^ 2 + 3 * y1 ^ 2 * b
      - 2 * y1 * x2 ^ 3 * y2 + 15 * y1 * x2 * y2 - 5 * y1 * y2 * b + 12 * x2 ^ 4
      - 2 * x2 ^ 3 * y2 ^ 2 - 6 * x2 ^ 3 * b - 9 * x2 * y2 ^ 2 - 6 * x2 * b + 2 * y2 ^ 4
      - 2 * y2 ^ 2 * b + 3 * b ^ 2) * e1 +
    (-9 * x1 ^ 5 * x2 + 6 * x1 ^ 4 * x2 ^ 2 + 3 * x1 ^ 4 + 2 * x1 ^ 3 * y1 * y2
      + 42 * x1 ^ 3 * x2 + 2 * x1 ^ 3 * y2 ^ 2 + 6 * x1 ^ 3 * b + 6 * x1 ^ 2 * y1 * x2 * y2
      - 27 * x1 ^ 2 * x2 ^ 2 - 3 * x1 ^ 2 * x2 * y2 ^ 2 - 27 * x1 ^ 2 * x2 * b
      - 45 * x1 ^ 2 - 3 * x1 * y1 * x2 ^ 2 * y2 - 15 * x1 * y1 * y2 + 15 * x1 * x2 ^ 2 * b
      + 27 * x1 * x2 + 21 * x1 * b - y1 * y2 ^ 3 + 5 * y1 * y2 * b - 9 * x2 ^ 2
      + 3 * x2 * y2 ^ 2 - 3 * x2 * b - y2 ^ 2 * b - 3 * b ^ 2) * e2

/-- Doubling through completeAdd on a normalized finite point: the three
output coordinates in closed polynomial form. -/
lemma completeAdd_dbl (b x y : K) (e1 : y ^ 2 = x ^ 3 - 3 * x + b) :
    (homogeneousPoint.completeAdd b { x := x, y := y, z := 1 }
        { x := x, y := y, z := 1 }).x =
      2 * y * ((3 * x ^ 2 - 3) ^ 2 - 8 * x * y ^ 2) ∧
    (homogeneousPoint.completeAdd b { x := x, y := y, z := 1 }
        { x := x, y := y, z := 1 }).y =
      (3 * x ^ 2 - 3) * (4 * x * y ^ 2 - ((3 * x ^ 2 - 3) ^ 2 - 8 * x * y ^ 2))
        - 8 * y ^ 4 ∧
    (homogeneousPoint.completeAdd b { x := x, y := y, z := 1 }
        { x := x, y := y, z := 1 }).z = 8 * y ^ 3 := by
  refine ⟨?_, ?_, ?_⟩ <;> simp only [homogeneousPoint.completeAdd]
  · linear_combination (18 * x * y) * e1
  · linear_combination (-27 * x ^ 3 + 9 * x + 9 * y ^ 2 + 9 * b) * e1
  · linear_combination (-6 * y) * e1

/-- Adding a normalized finite point and its negation through completeAdd:
the x and z outputs vanish identically and the y output is the numerator of
the y-coordinate of the double. -/
lemma completeAdd_neg (b x y : K) (e1 : y ^ 2 = x ^ 3 - 3 * x + b) :
    (homogeneousPoint.completeAdd b { x := x, y := y, z := 1 }
        { x := x, y := -y, z := 1 }).x = 0 ∧
    (homogeneousPoint.completeAdd b { x := x, y := y, z := 1 }
        { x := x, y := -y, z := 1 }).y =
      (3 * x ^ 2 - 3) * (4 * x * y ^ 2 - ((3 * x ^ 2 - 3) ^ 2 - 8 * x * y ^ 2))
        - 8 * y ^ 4 ∧
    (homogeneousPoint.completeAdd b { x := x, y := y, z := 1 }
        { x := x, y := -y, z := 1 }).z = 0 := by
  refine ⟨?_, ?_, ?_⟩ <;> simp only [homogeneousPoint.completeAdd]
  · ring
  · linear_combination (-27 * x ^ 3 + 9 * x + 9 * y ^ 2 + 9 * b) * e1
  · ring

end CompleteAddLemmas

section SlopeLemmas

open WeierstrassCurve.Affine

variable {K : Type} [Field K] [DecidableEq K]

/-- Numerator form of the affine sum x-coordinate for a chord. -/
lemma chord_xS {b : K} (x1 y1 x2 y2 : K) (hx : x1 ≠ x2) :
    (p384W b).addX x1 x2 ((p384W b).slope x1 x2 y1 y2) * (x1 - x2) ^ 2 =
      (y1 - y2) ^ 2 - (x1 + x2) * (x1 - x2) ^ 2 := by
  have hd : x1 - x2 ≠ 0 := sub_ne_zero.mpr hx
  rw [WeierstrassCurve.Affine.slope_of_X_ne hx]
  simp only [WeierstrassCurve.Affine.addX, p384W, p384ShortW, WeierstrassCurve.toAffine]
  field_simp
  ring

/-- Numerator form of the affine sum y-coordinate for a chord. -/
lemma chord_yS {b : K} (x1 y1 x2 y2 : K) (hx : x1 ≠ x2) :
    (p384W b).addY x1 x2 y1 ((p384W b).slope x1 x2 y1 y2) * (x1 - x2) ^ 3 =
      (y1 - y2) * (x1 * (x1 - x2) ^ 2
          - ((y1 - y2) ^ 2 - (x1 + x2) * (x1 - x2) ^ 2)) - y1 * (x1 - x2) ^ 3 := by
  have hd : x1 - x2 ≠ 0 := sub_ne_zero.mpr hx
  rw [WeierstrassCurve.Affine.slope_of_X_ne hx]
  simp only [WeierstrassCurve.Affine.addY, WeierstrassCurve.Affine.negAddY,
    WeierstrassCurve.Affine.negY, WeierstrassCurve.Affine.addX,
    p384W, p384ShortW, WeierstrassCurve.toAffine]
  field_simp
  ring

/-- Numerator form of the affine double x-coordinate (tangent slope). -/
lemma tangent_xS {b : K} (x y : K) (h2 : (2 : K) ≠ 0) (hy : y ≠ 0) :
    (p384W b).addX x x ((p384W b).slope x x y y) * (2 * y) ^ 2 =
      (3 * x ^ 2 - 3) ^ 2 - 8 * x * y ^ 2 := by
  have h2y : (2 : K) * y ≠ 0 := mul_ne_zero h2 hy
  have hyne : y ≠ (p384W b).negY x y := by
    rw [p384W_negY]
    intro hc
    exact h2y (by linear_combination hc)
  have hden : y - (p384W b).negY x y ≠ 0 := by
    rw [p384W_negY]
    intro hc
    exact h2y (by linear_combination hc)
  rw [WeierstrassCurve.Affine.slope_of_Y_ne rfl hyne]
  rw [p384W_negY] at hden ⊢
  have hsimp : y - -y = 2 * y := by ring
  rw [hsimp]
  simp only [WeierstrassCurve.Affine.addX, p384W, p384ShortW, WeierstrassCurve.toAffine]
  field_simp
  ring

/-- Numerator form of the affine double y-coordinate (tangent slope). -/
lemma tangent_yS {b : K} (x y : K) (h2 : (2 : K) ≠ 0) (hy : y ≠ 0) :
    (p384W b).addY x x y ((p384W b).slope x x y y) * (2 * y) ^ 3 =
      (3 * x ^ 2 - 3) * (4 * x * y ^ 2 - ((3 * x ^ 2 - 3) ^ 2 - 8 * x * y ^ 2))
        - 8 * y ^ 4 := by
  have h2y : (2 : K) * y ≠ 0 := mul_ne_zero h2 hy
  have hyne : y ≠ (p384W b).negY x y := by
    rw [p384W_negY]
    intro hc
    exact h2y (by linear_combination hc)
  have hden : y - (p384W b).negY x y ≠ 0 := by
    rw [p384W_negY]
    intro hc
    exact h2y (by linear_combination hc)
  rw [WeierstrassCurve.Affine.slope_of_Y_ne rfl hyne]
  rw [p384W_negY] at hden ⊢
  have hsimp : y - -y = 2 * y := by ring
  rw [hsimp]
  simp only [WeierstrassCurve.Affine.addY, WeierstrassCurve.Affine.negAddY,
    WeierstrassCurve.Affine.negY, WeierstrassCurve.Affine.addX,
    p384W, p384ShortW, WeierstrassCurve.toAffine]
  field_simp
  ring

/-- completeAdd applied to two scaled canonical representatives equals the
square of the scalar product times the canonical result. -/
lemma completeAdd_scale_repr {b : K} {Q R : homogeneousPoint K} {x1 y1 x2 y2 : K}
    (hQx : Q.x = x1 * Q.z) (hQy : Q.y = y1 * Q.z)
    (hRx : R.x = x2 * R.z) (hRy : R.y = y2 * R.z) :
    Q.completeAdd b R =
      { x := (Q.z * R.z) ^ 2 * (homogeneousPoint.completeAdd b
          { x := x1, y := y1, z := 1 } { x := x2, y := y2, z := 1 }).x,
        y := (Q.z * R.z) ^ 2 * (homogeneousPoint.completeAdd b
          { x := x1, y := y1, z := 1 } { x := x2, y := y2, z := 1 }).y,
        z := (Q.z * R.z) ^ 2 * (homogeneousPoint.completeAdd b
          { x := x1, y := y1, z := 1 } { x := x2, y := y2, z := 1 }).z } := by
  simp only [homogeneousPoint.completeAdd, homogeneousPoint.mk.injEq, hQx, hQy, hRx, hRy]
  refine ⟨by ring, by ring, by ring⟩

end SlopeLemmas

section ClaimC1

open WeierstrassCurve.Affine

variable {K : Type} [Field K] [DecidableEq K]

/-- C1: for every pair of homogeneous points Q and R, each either a point on
the curve or an identity encoding (0, y, 0) with y nonzero, completeAdd(Q, R)
produces a homogeneous point representing the group sum Q + R; in particular
it is correct when Q = R, when Q = -R, and when either operand is the
identity, and adding the identity on either side reproduces the operand in
affine terms (the represented point is unchanged since A + 0 = 0 + A = A).
The hypotheses record facts of the P-384 curve: 2 is invertible in the field
and the curve has no rational two-torsion (its group has prime, hence odd,
order), which is exactly the condition under which this complete addition
law is total. -/
theorem completeAdd_computes_group_sum {b : K} (h2 : (2 : K) ≠ 0)
    (h2tor : ∀ x y : K, y ^ 2 = x ^ 3 - 3 * x + b → y ≠ 0)
    {Q R : homogeneousPoint K} {A B : (p384W b).Point}
    (hQA : HomRepr b Q A) (hRB : HomRepr b R B) :
    HomRepr b (Q.completeAdd b R) (A + B) := by
  rcases hQA with ⟨hA, hQx, hQy, hQz⟩ | ⟨x1, y1, h1, hA, hQz, hQx, hQy⟩
  · subst hA
    rw [zero_add]
    have hres := completeAdd_idLeft b Q R hQx hQz
    rcases hRB with ⟨hB, hRx, hRy, hRz⟩ | ⟨x2, y2, h2R, hB, hRz, hRx, hRy⟩
    · subst hB
      rw [hres]
      refine Or.inl ⟨rfl, ?_, ?_, ?_⟩
      · show Q.y ^ 2 * (R.y * R.x) = 0
        rw [hRx]
        ring
      · show Q.y ^ 2 * (R.y * R.y) ≠ 0
        exact mul_ne_zero (pow_ne_zero 2 hQy) (mul_ne_zero hRy hRy)
      · show Q.y ^ 2 * (R.y * R.z) = 0
        rw [hRz]
        ring
    · subst hB
      have e2 : y2 ^ 2 = x2 ^ 3 - 3 * x2 + b := p384W_equation_iff.mp h2R.1
      have hy2 : y2 ≠ 0 := h2tor _ _ e2
      have hRyne : R.y ≠ 0 := by
        rw [hRy]
        exact mul_ne_zero hy2 hRz
      rw [hres]
      refine Or.inr ⟨x2, y2, h2R, rfl, ?_, ?_, ?_⟩
      · show Q.y ^ 2 * (R.y * R.z) ≠ 0
        exact mul_ne_zero (pow_ne_zero 2 hQy) (mul_ne_zero hRyne hRz)
      · show Q.y ^ 2 * (R.y * R.x) = x2 * (Q.y ^ 2 * (R.y * R.z))
        rw [hRx]
        ring
      · show Q.y ^ 2 * (R.y * R.y) = y2 * (Q.y ^ 2 * (R.y * R.z))
        rw [hRy]
        ring
  · have e1 : y1 ^ 2 = x1 ^ 3 - 3 * x1 + b := p384W_equation_iff.mp h1.1
    have hy1 : y1 ≠ 0 := h2tor _ _ e1
    rcases hRB with ⟨hB, hRx, hRy, hRz⟩ | ⟨x2, y2, h2R, hB, hRz, hRx, hRy⟩
    · subst hA
      subst hB
      rw [add_zero]
      have hres := completeAdd_idRight b Q R hRx hRz
      have hQyne : Q.y ≠ 0 := by
        rw [hQy]
        exact mul_ne_zero hy1 hQz
      rw [hres]
      refine Or.inr ⟨x1, y1, h1, rfl, ?_, ?_, ?_⟩
      · show R.y ^ 2 * (Q.y * Q.z) ≠ 0
        exact mul_ne_zero (pow_ne_zero 2 hRy) (mul_ne_zero hQyne hQz)
      · show R.y ^ 2 * (Q.y * Q.x) = x1 * (R.y ^ 2 * (Q.y * Q.z))
        rw [hQx]
        ring
      · show R.y ^ 2 * (Q.y * Q.y) = y1 * (R.y ^ 2 * (Q.y * Q.z))
        rw [hQy]
        ring
    · subst hA
      subst hB
      have e2 : y2 ^ 2 = x2 ^ 3 - 3 * x2 + b := p384W_equation_iff.mp h2R.1
      have hy2 : y2 ≠ 0 := h2tor _ _ e2
      have hSC := completeAdd_scale_repr (b := b) hQx hQy hRx hRy
      have hs : (Q.z * R.z) ^ 2 ≠ 0 := pow_ne_zero 2 (mul_ne_zero hQz hRz)
      have hyne : y1 ≠ (p384W b).negY x1 y1 := by
        rw [p384W_negY]
        intro hc
        exact mul_ne_zero h2 hy1 (by linear_combination hc)
      by_cases hx12 : x1 = x2
      · rcases Y_eq_of_X_eq h1.1 h2R.1 hx12 with hyy | hyy
        · subst hx12
          subst hyy
          have hAB : WeierstrassCurve.Affine.Point.some h2R =
              WeierstrassCurve.Affine.Point.some h1 := somePoint_eq h2R h1 rfl rfl
          rw [hAB, WeierstrassCurve.Affine.Point.add_self_of_Y_ne hyne]
          obtain ⟨cdx, cdy, cdz⟩ := completeAdd_dbl b x1 y1 e1
          have h8 : (8 : K) * y1 ^ 3 ≠ 0 := by
            intro hc
            exact pow_ne_zero 3 (mul_ne_zero h2 hy1) (by linear_combination hc)
          have htx := tangent_xS (b := b) x1 y1 h2 hy1
          have hty := tangent_yS (b := b) x1 y1 h2 hy1
          rw [hSC]
          refine Or.inr ⟨_, _, nonsingular_add h1 h1 (fun _ => hyne), rfl, ?_, ?_, ?_⟩
          · show (Q.z * R.z) ^ 2 * (homogeneousPoint.completeAdd b
                { x := x1, y := y1, z := 1 } { x := x1, y := y1, z := 1 }).z ≠ 0
            rw [cdz]
            exact mul_ne_zero hs h8
          · show (Q.z * R.z) ^ 2 * (homogeneousPoint.completeAdd b
                { x := x1, y := y1, z := 1 } { x := x1, y := y1, z := 1 }).x =
              (p384W b).addX x1 x1 ((p384W b).slope x1 x1 y1 y1) *
                ((Q.z * R.z) ^ 2 * (homogeneousPoint.completeAdd b
                  { x := x1, y := y1, z := 1 } { x := x1, y := y1, z := 1 }).z)
            rw [cdx, cdz]
            linear_combination (-2 * (Q.z * R.z) ^ 2 * y1) * htx
          · show (Q.z * R.z) ^ 2 * (homogeneousPoint.completeAdd b
                { x := x1, y := y1, z := 1 } { x := x1, y := y1, z := 1 }).y =
              (p384W b).addY x1 x1 y1 ((p384W b).slope x1 x1 y1 y1) *
                ((Q.z * R.z) ^ 2 * (homogeneousPoint.completeAdd b
                  { x := x1, y := y1, z := 1 } { x := x1, y := y1, z := 1 }).z)
            rw [cdy, cdz]
            linear_combination (-(Q.z * R.z) ^ 2) * hty
        · rw [WeierstrassCurve.Affine.Point.add_of_Y_eq hx12 hyy]
          subst hx12
          have hy2eq : y2 = -y1 := by
            rw [p384W_negY] at hyy
            linear_combination hyy
          subst hy2eq
          obtain ⟨cnx, cny, cnz⟩ := completeAdd_neg b x1 y1 e1
          have hEq2A := equation_add h1.1 h1.1 (fun _ => hyne)
          have hyS := h2tor _ _ (p384W_equation_iff.mp hEq2A)
          have hty := tangent_yS (b := b) x1 y1 h2 hy1
          have hNdy : (3 * x1 ^ 2 - 3) *
              (4 * x1 * y1 ^ 2 - ((3 * x1 ^ 2 - 3) ^ 2 - 8 * x1 * y1 ^ 2))
                - 8 * y1 ^ 4 ≠ 0 := by
            rw [← hty]
            exact mul_ne_zero hyS (pow_ne_zero 3 (mul_ne_zero h2 hy1))
          rw [hSC]
          refine Or.inl ⟨rfl, ?_, ?_, ?_⟩
          · show (Q.z * R.z) ^ 2 * (homogeneousPoint.completeAdd b
                { x := x1, y := y1, z := 1 } { x := x1, y := -y1, z := 1 }).x = 0
            rw [cnx]
            ring
          · show (Q.z * R.z) ^ 2 * (homogeneousPoint.completeAdd b
                { x := x1, y := y1, z := 1 } { x := x1, y := -y1, z := 1 }).y ≠ 0
            rw [cny]
            exact mul_ne_zero hs hNdy
          · show (Q.z * R.z) ^ 2 * (homogeneousPoint.completeAdd b
                { x := x1, y := y1, z := 1 } { x := x1, y := -y1, z := 1 }).z = 0
            rw [cnz]
            ring
      · have hd : x1 - x2 ≠ 0 := sub_ne_zero.mpr hx12
        have hgz := completeAdd_gen_z b x1 y1 x2 y2 e1 e2
        have hgx := completeAdd_gen_x b x1 y1 x2 y2 e1 e2
        have hgy := completeAdd_gen_y b x1 y1 x2 y2 e1 e2
        have hxy4 : x1 = x2 → y1 ≠ (p384W b).negY x2 (-y2) :=
          fun h => absurd h hx12
        have hEqNeg : (p384W b).Equation x2 (-y2) :=
          p384W_equation_iff.mpr (by linear_combination e2)
        have hEqD := equation_add h1.1 hEqNeg hxy4
        have hy4 := h2tor _ _ (p384W_equation_iff.mp hEqD)
        have hy4num : (p384W b).addY x1 x2 y1
              ((p384W b).slope x1 x2 y1 (-y2)) * (x1 - x2) ^ 3 =
            (y1 + y2) * (x1 * (x1 - x2) ^ 2
              - ((y1 + y2) ^ 2 - (x1 + x2) * (x1 - x2) ^ 2)) - y1 * (x1 - x2) ^ 3 := by
          have h0 := chord_yS (b := b) x1 y1 x2 (-y2) hx12
          linear_combination h0
        have hCz : (homogeneousPoint.completeAdd b { x := x1, y := y1, z := 1 }
            { x := x2, y := y2, z := 1 }).z =
            -((p384W b).addY x1 x2 y1
              ((p384W b).slope x1 x2 y1 (-y2)) * (x1 - x2) ^ 3) := by
          rw [hy4num]
          exact hgz
        have hCzne : (homogeneousPoint.completeAdd b { x := x1, y := y1, z := 1 }
            { x := x2, y := y2, z := 1 }).z ≠ 0 := by
          rw [hCz]
          exact neg_ne_zero.mpr (mul_ne_zero hy4 (pow_ne_zero 3 hd))
        have hxS := chord_xS (b := b) x1 y1 x2 y2 hx12
        have hyS := chord_yS (b := b) x1 y1 x2 y2 hx12
        have hCx : (homogeneousPoint.completeAdd b { x := x1, y := y1, z := 1 }
            { x := x2, y := y2, z := 1 }).x =
            (p384W b).addX x1 x2 ((p384W b).slope x1 x2 y1 y2) *
              (homogeneousPoint.completeAdd b { x := x1, y := y1, z := 1 }
                { x := x2, y := y2, z := 1 }).z := by
          refine mul_right_cancel₀ (pow_ne_zero 2 hd) ?_
          rw [hgx]
          linear_combination (-(homogeneousPoint.completeAdd b { x := x1, y := y1, z := 1 }
            { x := x2, y := y2, z := 1 }).z) * hxS
        have hCy : (homogeneousPoint.completeAdd b { x := x1, y := y1, z := 1 }
            { x := x2, y := y2, z := 1 }).y =
            (p384W b).addY x1 x2 y1 ((p384W b).slope x1 x2 y1 y2) *
              (homogeneousPoint.completeAdd b { x := x1, y := y1, z := 1 }
                { x := x2, y := y2, z := 1 }).z := by
          refine mul_right_cancel₀ (pow_ne_zero 3 hd) ?_
          rw [hgy]
          linear_combination (-(homogeneousPoint.completeAdd b { x := x1, y := y1, z := 1 }
            { x := x2, y := y2, z := 1 }).z) * hyS
        rw [WeierstrassCurve.Affine.Point.add_of_X_ne hx12, hSC]
        refine Or.inr ⟨_, _, nonsingular_add h1 h2R (fun h => absurd h hx12), rfl,
          ?_, ?_, ?_⟩
        · show (Q.z * R.z) ^ 2 * (homogeneousPoint.completeAdd b
              { x := x1, y := y1, z := 1 } { x := x2, y := y2, z := 1 }).z ≠ 0
          exact mul_ne_zero hs hCzne
        · show (Q.z * R.z) ^ 2 * (homogeneousPoint.completeAdd b
              { x := x1, y := y1, z := 1 } { x := x2, y := y2, z := 1 }).x =
            (p384W b).addX x1 x2 ((p384W b).slope x1 x2 y1 y2) *
              ((Q.z * R.z) ^ 2 * (homogeneousPoint.completeAdd b
                { x := x1, y := y1, z := 1 } { x := x2, y := y2, z := 1 }).z)
          rw [hCx]
          ring
        · show (Q.z * R.z) ^ 2 * (homogeneousPoint.completeAdd b
              { x := x1, y := y1, z := 1 } { x := x2, y := y2, z := 1 }).y =
            (p384W b).addY x1 x2 y1 ((p384W b).slope x1 x2 y1 y2) *
              ((Q.z * R.z) ^ 2 * (homogeneousPoint.completeAdd b
                { x := x1, y := y1, z := 1 } { x := x2, y := y2, z := 1 }).z)
          rw [hCy]
          ring

end ClaimC1

/-- Witness for C1 at the GF(13) witness curve: the homogeneous lifts of
(0,1) and (12,4). -/
theorem completeAdd_computes_group_sum_witness :
    ((2 : ZMod 13) ≠ 0 ∧ ∀ x y : ZMod 13, y ^ 2 = x ^ 3 - 3 * x + 1 → y ≠ 0) ∧
    HomRepr (1 : ZMod 13)
      (homogeneousPoint.completeAdd (1 : ZMod 13)
        ({ x := 0, y := 1, z := 1 } : homogeneousPoint (ZMod 13))
        ({ x := 12, y := 4, z := 1 } : homogeneousPoint (ZMod 13)))
      (A13 + WeierstrassCurve.Affine.Point.some ns13_2A) :=
  ⟨⟨by decide, by decide⟩,
    completeAdd_computes_group_sum (by decide) (by decide)
      (Or.inr ⟨0, 1, ns13_A, rfl, by decide, by decide, by decide⟩)
      (Or.inr ⟨12, 4, ns13_2A, rfl, by decide, by decide, by decide⟩)⟩
